import Mathlib

/-!
# Verification of the bw-claude sandboxing harness

Shallow embedding, in Lean 4, of the policy-evaluation engine, the filter
daemon's request handling, the configuration validator and resolver, the
learning recorder, and the sandbox builder of the `bw-claude` repository
(crates `bwrap-proxy` and `bwrap-core`), together with theorems settling
the specification claims about them.

Rust side conventions used throughout the embedding:
  * `IndexMap`/`HashMap` keyed by strings are embedded as association
    lists `List (String × α)` looked up with `List.lookup` (first match);
    iteration order is list order, matching `IndexMap` insertion order.
  * `HashSet<String>` is embedded as a `List String` queried with
    `List.contains`.
  * Rust `Result` is embedded as `Except`.
  * Machine integers that the code never overflows (lengths, ports,
    specificities) are embedded as `Nat`.
-/

namespace BwClaude

/-! ## Wildcard matching (the `wildmatch` crate, used by `HostMatcher`)

`WildMatch::new(pattern).matches(input)`: `?` matches exactly one
character, `*` matches any sequence of characters (including the empty
one); all other characters match themselves, case-sensitively. -/

/-- Wildcard match of `pattern` against `input`, both as character lists.
Embeds the `wildmatch` crate's semantics used by `HostMatcher::add_pattern`
/ `matches`. Structural recursion on explicit fuel so that the kernel can
evaluate concrete matches; every recursive call shrinks the combined
length of pattern and input by at least one, so the fuel
`|pattern| + |input| + 1` supplied by `wildMatch` below is never
exhausted and the `fuel = 0` clause is unreachable. -/
def wildMatchGo : Nat → List Char → List Char → Bool
  | 0, _, _ => false
  | fuel + 1, pattern, input =>
    match pattern, input with
    | [], [] => true
    | [], _ :: _ => false
    | '*' :: ps, [] => wildMatchGo fuel ps []
    | '*' :: ps, c :: cs =>
      wildMatchGo fuel ps (c :: cs) || wildMatchGo fuel ('*' :: ps) cs
    | '?' :: ps, _ :: cs => wildMatchGo fuel ps cs
    | '?' :: _, [] => false
    | p :: ps, c :: cs => p == c && wildMatchGo fuel ps cs
    | _ :: _, [] => false

/-- Wildcard match on strings. -/
def wildMatch (pattern input : String) : Bool :=
  wildMatchGo (pattern.length + input.length + 1) pattern.toList input.toList

/-! ## IP addresses and CIDR ranges (`ipnet` crate types)

`Ipv4Net`/`Ipv6Net` hold an address plus a prefix length; `contains`
compares the leading `prefixLen` bits of the addresses. Addresses are
embedded as `Nat` below `2^32` (resp. `2^128`). -/

/-- An IPv4 CIDR range (`ipnet::Ipv4Net`): 32-bit address and prefix length. -/
structure Ipv4Net where
  addr : Nat
  prefixLen : Nat
  deriving Repr, DecidableEq

/-- An IPv6 CIDR range (`ipnet::Ipv6Net`): 128-bit address and prefix length. -/
structure Ipv6Net where
  addr : Nat
  prefixLen : Nat
  deriving Repr, DecidableEq

/-- `Ipv4Net::contains`: the leading `prefixLen` bits of `ip` equal those of
the network address. -/
def Ipv4Net.containsIp (net : Ipv4Net) (ip : Nat) : Bool :=
  ip >>> (32 - net.prefixLen) == net.addr >>> (32 - net.prefixLen)

/-- `Ipv6Net::contains`. -/
def Ipv6Net.containsIp (net : Ipv6Net) (ip : Nat) : Bool :=
  ip >>> (128 - net.prefixLen) == net.addr >>> (128 - net.prefixLen)

/-- `std::net::IpAddr`: a v4 or v6 address, embedded as its numeric value. -/
inductive IpAddr where
  | v4 (a : Nat)
  | v6 (a : Nat)
  deriving Repr, DecidableEq

/-! ## `HostMatcher` (`bwrap-proxy/src/filter/matcher.rs`) -/

/-- `HostMatcher`: wildcard host patterns plus CIDR ranges. -/
structure HostMatcher where
  patterns : List String
  ipv4Ranges : List Ipv4Net
  ipv6Ranges : List Ipv6Net
  deriving Repr, DecidableEq

namespace HostMatcher

/-- `HostMatcher::new`. -/
def new : HostMatcher := ⟨[], [], []⟩

/-- `HostMatcher::add_pattern`. -/
def addPattern (m : HostMatcher) (pattern : String) : HostMatcher :=
  { m with patterns := m.patterns ++ [pattern] }

/-- `HostMatcher::add_ipv4_range`. -/
def addIpv4Range (m : HostMatcher) (range : Ipv4Net) : HostMatcher :=
  { m with ipv4Ranges := m.ipv4Ranges ++ [range] }

/-- `HostMatcher::add_ipv6_range`. -/
def addIpv6Range (m : HostMatcher) (range : Ipv6Net) : HostMatcher :=
  { m with ipv6Ranges := m.ipv6Ranges ++ [range] }

/-- `HostMatcher::matches_host`: any pattern matches the hostname. -/
def matchesHost (m : HostMatcher) (host : String) : Bool :=
  m.patterns.any (fun p => wildMatch p host)

/-- `HostMatcher::matches_ip`: any range of the address's family contains it. -/
def matchesIp (m : HostMatcher) (ip : IpAddr) : Bool :=
  match ip with
  | .v4 a => m.ipv4Ranges.any (fun net => net.containsIp a)
  | .v6 a => m.ipv6Ranges.any (fun net => net.containsIp a)

end HostMatcher

/-- Split a character list at every occurrence of `sep` (the semantics of
Rust's `str::split(char)`: n separators yield n+1 pieces, empties kept). -/
def splitOnChar (sep : Char) : List Char → List (List Char)
  | [] => [[]]
  | c :: cs =>
    match splitOnChar sep cs with
    | [] => [[]]
    | piece :: rest =>
      if c = sep then [] :: piece :: rest else (c :: piece) :: rest

/-- `calculate_hostname_specificity`: the number of dot-separated labels of
the host (`host.split('.').count()`, i.e. one more than the number of
dots). -/
def calculateHostnameSpecificity (host : String) : Nat :=
  (splitOnChar '.' host.toList).length

/-- `HostMatcher::matches_with_specificity`: `some k` when any pattern
matches, where `k` is the maximum over matching patterns of the specificity
of the matched host itself. -/
def HostMatcher.matchesWithSpecificity (m : HostMatcher) (host : String) :
    Option Nat :=
  m.patterns.foldl
    (fun maxSpec p =>
      if wildMatch p host then
        some (Nat.max (maxSpec.getD 0) (calculateHostnameSpecificity host))
      else maxSpec)
    none

/-! ## Parsing of IP range literals

`PolicyEngine::expand_group` parses each `ipv4_ranges` / `ipv6_ranges`
string with `str::parse::<Ipv4Net>` / `::<Ipv6Net>` (`ipnet` crate):
`<address>/<prefix-length>`, the address in the standard textual form of
`std::net::Ipv4Addr` / `Ipv6Addr`. -/

/-- Decimal digit value of a character, if it is a digit. -/
def digitVal (c : Char) : Option Nat :=
  if '0' ≤ c ∧ c ≤ '9' then some (c.toNat - '0'.toNat) else none

/-- Parse a nonempty all-digit string as a decimal number. -/
def parseDecDigits (s : List Char) : Option Nat :=
  match s with
  | [] => none
  | _ =>
    s.foldl
      (fun acc c =>
        match acc, digitVal c with
        | some n, some d => some (n * 10 + d)
        | _, _ => none)
      (some 0)

/-- Parse one dotted-quad octet: 1–3 digits, no leading zero (except "0"
itself), value ≤ 255, as `std::net::Ipv4Addr`'s parser accepts. -/
def parseOctet (s : List Char) : Option Nat :=
  match parseDecDigits s with
  | none => none
  | some n =>
    if s.length > 1 ∧ s.head? = some '0' then none
    else if n ≤ 255 then some n else none

/-- Parse a dotted-quad IPv4 address (as a character list) into its 32-bit
value. -/
def parseIpv4AddrL (l : List Char) : Option Nat :=
  match (splitOnChar '.' l).map parseOctet with
  | [some a, some b, some c, some d] => some (((a * 256 + b) * 256 + c) * 256 + d)
  | _ => none

/-- Parse a dotted-quad IPv4 address into its 32-bit value. -/
def parseIpv4Addr (s : String) : Option Nat :=
  parseIpv4AddrL s.toList

/-- Hex digit value of a character, if it is one. -/
def hexVal (c : Char) : Option Nat :=
  if '0' ≤ c ∧ c ≤ '9' then some (c.toNat - '0'.toNat)
  else if 'a' ≤ c ∧ c ≤ 'f' then some (c.toNat - 'a'.toNat + 10)
  else if 'A' ≤ c ∧ c ≤ 'F' then some (c.toNat - 'A'.toNat + 10)
  else none

/-- Parse one 16-bit hexadecimal group of an IPv6 address: 1–4 hex digits. -/
def parseHexGroup (s : List Char) : Option Nat :=
  match s with
  | [] => none
  | _ =>
    if s.length > 4 then none
    else
      s.foldl
        (fun acc c =>
          match acc, hexVal c with
          | some n, some d => some (n * 16 + d)
          | _, _ => none)
        (some 0)

/-- Parse a colon-separated piece list of an IPv6 address into 16-bit
groups; only the final piece may be an embedded dotted-quad IPv4 address
(contributing two groups). -/
def parseV6Pieces : List (List Char) → Option (List Nat)
  | [] => some []
  | [p] =>
    if p.contains '.' then
      (parseIpv4AddrL p).map (fun v => [v / 65536, v % 65536])
    else
      (parseHexGroup p).map (fun g => [g])
  | p :: rest =>
    match parseHexGroup p, parseV6Pieces rest with
    | some g, some gs => some (g :: gs)
    | _, _ => none

/-- Split a character list at every occurrence of the two-character
separator `::` (the semantics of Rust's `str::split("::")`, non-overlapping
left-to-right). -/
def splitDoubleColon : List Char → List (List Char)
  | [] => [[]]
  | ':' :: ':' :: rest => [] :: splitDoubleColon rest
  | c :: cs =>
    match splitDoubleColon cs with
    | [] => [[]]
    | piece :: rest => (c :: piece) :: rest

/-- Parse the standard textual form of `std::net::Ipv6Addr` (hex groups
separated by `:`, at most one `::` compression, optional embedded
dotted-quad tail) into its 128-bit value. -/
def parseIpv6Addr (s : String) : Option Nat :=
  let toValue : List Nat → Nat := fun gs => gs.foldl (fun acc g => acc * 65536 + g) 0
  match splitDoubleColon s.toList with
  | [whole] =>
    match parseV6Pieces (splitOnChar ':' whole) with
    | some gs => if gs.length = 8 then some (toValue gs) else none
    | none => none
  | [left, right] =>
    let leftPieces := if left.isEmpty then [] else splitOnChar ':' left
    let rightPieces := if right.isEmpty then [] else splitOnChar ':' right
    match parseV6Pieces leftPieces, parseV6Pieces rightPieces with
    | some lg, some rg =>
      if lg.length + rg.length ≤ 7 then
        some (toValue (lg ++ List.replicate (8 - lg.length - rg.length) 0 ++ rg))
      else none
    | _, _ => none
  | _ => none

/-- `str::parse::<Ipv4Net>`: `<dotted-quad>/<prefix-length>`, prefix ≤ 32. -/
def parseIpv4Net (s : String) : Option Ipv4Net :=
  match splitOnChar '/' s.toList with
  | [addrChars, prefixChars] =>
    match parseIpv4AddrL addrChars, parseDecDigits prefixChars with
    | some a, some p => if p ≤ 32 then some ⟨a, p⟩ else none
    | _, _ => none
  | _ => none

/-- `str::parse::<Ipv6Net>`: `<ipv6-address>/<prefix-length>`, prefix ≤ 128. -/
def parseIpv6Net (s : String) : Option Ipv6Net :=
  match splitOnChar '/' s.toList with
  | [addrChars, prefixChars] =>
    match parseIpv6Addr (String.mk addrChars), parseDecDigits prefixChars with
    | some a, some p => if p ≤ 128 then some ⟨a, p⟩ else none
    | _, _ => none
  | _ => none

/-! ## Configuration schema (`bwrap-proxy/src/config/schema.rs`, plus the
`Policy`/`PolicyMode` fields read by `filter/policy.rs` and its tests) -/

/-- `HostGroup`: a named group of hosts and IP ranges. Union of the fields
appearing across the crate (`hosts_deny` from `config/schema.rs`, the IP
range lists read by `filter/policy.rs`). -/
structure HostGroup where
  description : String := ""
  hosts : List String := []
  hosts_deny : List String := []
  ipv4_ranges : List String := []
  ipv6_ranges : List String := []
  groups : List String := []
  deriving Repr, DecidableEq

/-- `PolicyMode` as used by `filter/policy.rs`: `Allow` = allow-list mode
(block by default), `Deny` = deny-list mode (allow by default) — per the
comments in `PolicyEngine::allow`. -/
inductive PolicyMode where
  | allow
  | deny
  deriving Repr, DecidableEq

/-- `Policy` as read by `filter/policy.rs` (whose tests construct exactly
these fields): allow/deny group lists, the legacy `groups` alias, the
`allow_all` bypass flag and the `mode`. -/
structure Policy where
  description : String := ""
  allow_groups : List String := []
  deny_groups : List String := []
  groups : List String := []
  allow_all : Bool := false
  mode : PolicyMode
  deriving Repr, DecidableEq

/-- `Policy::effective_allow_groups`: `allow_groups` when nonempty, else
the legacy `groups` field. -/
def Policy.effective_allow_groups (p : Policy) : List String :=
  if p.allow_groups.isEmpty then p.groups else p.allow_groups

/-- `NetworkConfig`: insertion-ordered maps of groups and policies. -/
structure NetworkConfig where
  groups : List (String × HostGroup) := []
  policies : List (String × Policy) := []
  deriving Repr, DecidableEq

/-- `ProxyError` (the variants produced by the policy engine). -/
inductive ProxyError where
  | policyNotFound (policy : String)
  | groupNotFound (group : String)
  | network (msg : String)
  deriving Repr, DecidableEq

/-! ## `PolicyEngine` (`bwrap-proxy/src/filter/policy.rs`) -/

/-- `PolicyEngine`: allow and deny matchers, the policy mode, and the
`allow_all` bypass flag. -/
structure PolicyEngine where
  allow_matcher : HostMatcher
  deny_matcher : HostMatcher
  mode : PolicyMode
  allow_all : Bool
  deriving Repr, DecidableEq

/-- `PolicyEngine::expand_group`: recursively expand a group, adding its
host patterns and parsed IP ranges to the matcher, skipping names already
in `processed`. Rust recurses with a mutable `processed` set, which bounds
the recursion depth by the number of configured groups; the embedding
mirrors this with explicit fuel (`from_policy` below supplies
`groups.length + 2`, an upper bound on the nesting depth the `processed`
guard permits). -/
def expandGroup (groups : List (String × HostGroup)) :
    Nat → String → HostMatcher × List String →
    Except ProxyError (HostMatcher × List String)
  | 0, _, _ => .error (.network "group recursion limit exceeded")
  | fuel + 1, groupName, (matcher, processed) =>
    if processed.contains groupName then .ok (matcher, processed)
    else
      let processed := groupName :: processed
      match groups.lookup groupName with
      | none => .error (.groupNotFound groupName)
      | some group => do
        let matcher := group.hosts.foldl (fun m h => m.addPattern h) matcher
        let matcher ← group.ipv4_ranges.foldlM
          (fun m rangeStr =>
            match parseIpv4Net rangeStr with
            | some range => .ok (m.addIpv4Range range)
            | none => .error (.network ("Invalid IPv4 range " ++ rangeStr)))
          matcher
        let matcher ← group.ipv6_ranges.foldlM
          (fun m rangeStr =>
            match parseIpv6Net rangeStr with
            | some range => .ok (m.addIpv6Range range)
            | none => .error (.network ("Invalid IPv6 range " ++ rangeStr)))
          matcher
        group.groups.foldlM
          (fun acc childName => expandGroup groups fuel childName acc)
          (matcher, processed)

namespace PolicyEngine

/-- `PolicyEngine::from_policy`: look up the named policy; if it allows
all, return the bypass engine with empty matchers; otherwise expand the
effective allow groups into the allow matcher and the deny groups into the
deny matcher (with a fresh `processed` set, matching `processed.clear()`). -/
def fromPolicy (policyName : String) (network : NetworkConfig) :
    Except ProxyError PolicyEngine :=
  match network.policies.lookup policyName with
  | none => .error (.policyNotFound policyName)
  | some policy =>
    if policy.allow_all then
      .ok ⟨HostMatcher.new, HostMatcher.new, policy.mode, true⟩
    else do
      let fuel := network.groups.length + 2
      let (allow_matcher, _) ← policy.effective_allow_groups.foldlM
        (fun acc groupName => expandGroup network.groups fuel groupName acc)
        (HostMatcher.new, [])
      let (deny_matcher, _) ← policy.deny_groups.foldlM
        (fun acc groupName => expandGroup network.groups fuel groupName acc)
        (HostMatcher.new, [])
      .ok ⟨allow_matcher, deny_matcher, policy.mode, false⟩

/-- `PolicyEngine::allow`: "more specific wins" between hostname matches
(deny wins ties); hostname matches take precedence over IP matches; with
no match at all, `Allow` mode blocks and `Deny` mode allows by default. -/
def allow (e : PolicyEngine) (host : String) (ip : Option IpAddr) : Bool :=
  if e.allow_all then true
  else
    let allowHostnameSpec := e.allow_matcher.matchesWithSpecificity host
    let denyHostnameSpec := e.deny_matcher.matchesWithSpecificity host
    let allowIpMatch := (ip.map (fun a => e.allow_matcher.matchesIp a)).getD false
    let denyIpMatch := (ip.map (fun a => e.deny_matcher.matchesIp a)).getD false
    match allowHostnameSpec, denyHostnameSpec with
    | some allowSpec, some denySpec => allowSpec > denySpec
    | some _, none => true
    | none, some _ => false
    | none, none =>
      if allowIpMatch && denyIpMatch then false
      else if allowIpMatch then true
      else if denyIpMatch then false
      else e.mode == PolicyMode.deny

/-- `PolicyEngine::is_allow_all`. -/
def is_allow_all (e : PolicyEngine) : Bool := e.allow_all

end PolicyEngine

/-- The policy's configured default is "allow". In the `PolicyMode`
vocabulary of `filter/policy.rs` this is `PolicyMode::Deny` ("In Deny
mode: allow by default" — comment in `PolicyEngine::allow`); `Allow` mode
is allow-list mode and blocks by default. -/
def Policy.default_is_allow (p : Policy) : Bool :=
  p.mode == PolicyMode.deny

/-! ### Concrete configurations used as witnesses for the engine claims -/

/-- Witness policy for the longest-match claim (spec scenario S3). -/
def s3policy : Policy :=
  { allow_groups := ["anthropic"], deny_groups := ["secrets"],
    mode := PolicyMode.allow }

/-- Witness network for the longest-match claim: a broad allow group and a
narrow deny override, as in spec scenario S3. -/
def s3net : NetworkConfig :=
  { groups :=
      [("anthropic", { description := "Anthropic", hosts := ["*.anthropic.com"] }),
       ("secrets", { description := "Secrets", hosts := ["internal.anthropic.com"] })],
    policies := [("restrictive", s3policy)] }

/-- The engine `PolicyEngine::from_policy("restrictive", s3net)` constructs. -/
def s3engine : PolicyEngine :=
  { allow_matcher := ⟨["*.anthropic.com"], [], []⟩,
    deny_matcher := ⟨["internal.anthropic.com"], [], []⟩,
    mode := PolicyMode.allow,
    allow_all := false }

/-- Witness network for the ip-dependence counterexample: a deny group
that carries only an IPv4 CIDR range, under a default-allow policy. -/
def ipNet : NetworkConfig :=
  { groups := [("ipdeny", { ipv4_ranges := ["10.0.0.0/8"] })],
    policies :=
      [("p", { deny_groups := ["ipdeny"], mode := PolicyMode.deny })] }

/-- The address 10.0.0.1 as a numeric IPv4 value. -/
def ip10001 : IpAddr := .v4 (10 * 16777216 + 1)

/-- Witness policy for the allow-all bypass claim: `allow_all` set together
with a nonempty `deny_groups` list that must have no effect. -/
def openPolicy : Policy :=
  { allow_all := true, deny_groups := ["blocked"], mode := PolicyMode.allow }

/-- Witness network for the allow-all bypass claim. -/
def openNet : NetworkConfig :=
  { groups := [("blocked", { hosts := ["*.x.com"] })],
    policies := [("open", openPolicy)] }

/-! ## The filter daemon's request handling
(`bwrap-proxy/src/proxy/server.rs`, `handle_client`)

`handle_client` performs one `read` (up to 1024 bytes), returns silently on
an empty read, lossily decodes the bytes to UTF-8, trims surrounding
whitespace, requires the prefix `"CONNECT "`, splits on whitespace into
exactly three tokens, parses the third as a decimal `u16`, replies
`ERROR\n` on any of these failures, consults the policy engine (reply
`BLOCKED\n` on deny, without recording anything), records the host when a
learning recorder is present, then attempts the TCP connection (`OK\n` /
`FAIL\n`). The embedding models the received bytes by their lossy UTF-8
decoding (a Lean `String`; for ASCII traffic the decoding is the identity)
and the TCP dial by a boolean oracle. -/

/-- Rust `char::is_whitespace`: the Unicode `White_Space` code points. -/
def rustIsWhitespace (c : Char) : Bool :=
  c = ' ' ∨ c = '\t' ∨ c = '\n' ∨ c.toNat = 0x0B ∨ c.toNat = 0x0C ∨
  c = '\r' ∨ c.toNat = 0x85 ∨ c.toNat = 0xA0 ∨ c.toNat = 0x1680 ∨
  (0x2000 ≤ c.toNat ∧ c.toNat ≤ 0x200A) ∨ c.toNat = 0x2028 ∨
  c.toNat = 0x2029 ∨ c.toNat = 0x202F ∨ c.toNat = 0x205F ∨ c.toNat = 0x3000

/-- Rust `str::trim`: drop leading and trailing whitespace characters. -/
def trimChars (l : List Char) : List Char :=
  ((l.dropWhile rustIsWhitespace).reverse.dropWhile rustIsWhitespace).reverse

/-- Helper for `str::split_whitespace`: accumulate the current word
(reversed) and cut at whitespace runs, keeping no empty pieces. -/
def splitWsGo (cur : List Char) : List Char → List (List Char)
  | [] => if cur.isEmpty then [] else [cur.reverse]
  | c :: cs =>
    if rustIsWhitespace c then
      if cur.isEmpty then splitWsGo [] cs else cur.reverse :: splitWsGo [] cs
    else splitWsGo (c :: cur) cs

/-- Rust `str::split_whitespace`. -/
def splitWhitespaceL (l : List Char) : List (List Char) :=
  splitWsGo [] l

/-- Rust `str::parse::<u16>`: optional leading `+`, then decimal digits,
value at most 65535. -/
def parseU16 (l : List Char) : Option Nat :=
  let digits := match l with
    | '+' :: rest => rest
    | _ => l
  match parseDecDigits digits with
  | some n => if n ≤ 65535 then some n else none
  | none => none

/-- Observable outcome of one `handle_client` run: the reply line written
(none when the connection is closed without replying), the hosts passed to
`LearningRecorder::record`, and the hosts passed to
`LearningRecorder::record_denied`. -/
structure ClientOutcome where
  reply : Option String
  recordedHosts : List String
  recordedDenied : List String
  deriving Repr, DecidableEq

/-- `handle_client` (`proxy/server.rs`), as a function of the received
data (lossily decoded), the optional policy engine, the presence of a
learning recorder, and a TCP-dial oracle. -/
def handleClient (engine : Option PolicyEngine) (recorderPresent : Bool)
    (tcpConnect : String → Nat → Bool) (input : String) : ClientOutcome :=
  if input.isEmpty then ⟨none, [], []⟩
  else
    let request := trimChars input.toList
    if ¬ ("CONNECT ".toList.isPrefixOf request) then ⟨some "ERROR\n", [], []⟩
    else
      match splitWhitespaceL request with
      | [_, hostChars, portChars] =>
        match parseU16 portChars with
        | none => ⟨some "ERROR\n", [], []⟩
        | some port =>
          let host := String.mk hostChars
          let blocked :=
            match engine with
            | some e => ! e.allow host none
            | none => false
          if blocked then ⟨some "BLOCKED\n", [], []⟩
          else
            let recorded := if recorderPresent then [host] else []
            if tcpConnect host port then ⟨some "OK\n", recorded, []⟩
            else ⟨some "FAIL\n", recorded, []⟩
      | _ => ⟨some "ERROR\n", [], []⟩

/-- The parse phase of `handle_client` in isolation: the trimmed request
must start with `"CONNECT "`, split into exactly three whitespace-separated
tokens, and carry a `u16` third token. Mirrors the checks of
`handle_client` one-for-one. -/
def requestParses (input : String) : Bool :=
  let request := trimChars input.toList
  "CONNECT ".toList.isPrefixOf request &&
    match splitWhitespaceL request with
    | [_, _, portChars] => (parseU16 portChars).isSome
    | _ => false

/-- The exact wire format the specification demands: the bytes are
literally `CONNECT <host> <port>\n` for a single space on each side, a
nonempty `<host>` free of whitespace, and a `<port>` parsing as `u16`.
Stated from the spec's words, for comparison with the code's actual
acceptance. -/
def isExactConnectLine (s : String) : Bool :=
  match splitOnChar ' ' s.toList with
  | [connectWord, hostChars, portTail] =>
    connectWord = "CONNECT".toList &&
    ¬ hostChars.isEmpty && hostChars.all (fun c => ¬ rustIsWhitespace c) &&
    match portTail.reverse with
    | '\n' :: portRev =>
      let portChars := portRev.reverse
      portChars.all (fun c => ¬ rustIsWhitespace c) && (parseU16 portChars).isSome
    | _ => false
  | _ => false

/-! ## The learning recorder
(`bwrap-core/src/config/learning.rs`, `LearningRecorder::record_denied_host`)

The recorder owns an in-memory config; `record_denied_host` inserts the
host into the `<session_name>_denied` group (creating it on first use),
deduplicating. The embedding carries just the `network.groups` map the
method touches. -/

/-- `LearningRecorder::record_denied_host`: `or_insert` the
`<session>_denied` group, then push the host if not already present. -/
def recordDeniedHost (sessionName : String)
    (groups : List (String × HostGroup)) (host : String) :
    List (String × HostGroup) :=
  let deniedGroupName := sessionName ++ "_denied"
  let pushHost : HostGroup → HostGroup := fun g =>
    if g.hosts.contains host then g else { g with hosts := g.hosts ++ [host] }
  if (groups.lookup deniedGroupName).isSome then
    groups.map (fun kv =>
      if kv.1 = deniedGroupName then (kv.1, pushHost kv.2) else kv)
  else
    groups ++ [(deniedGroupName, pushHost { description := deniedGroupName })]

/-- An engine with no rules and `Allow` (allow-list) mode: blocks every
host by default. Used to exercise the daemon's `BLOCKED` path. -/
def defaultDenyEngine : PolicyEngine :=
  ⟨HostMatcher.new, HostMatcher.new, PolicyMode.allow, false⟩

/-! ## Filesystem specs and their resolver
(`bwrap-core/src/config/schema.rs`, `bwrap-core/src/config/resolver.rs`) -/

/-- `FilesystemSpec`: a named recipe of mount points. The Rust field
`extends` is spelled `«extends»` because `extends` is a Lean keyword. -/
structure FilesystemSpec where
  description : Option String := none
  ro_home_dirs : List String := []
  rw_home_dirs : List String := []
  ro_home_files : List String := []
  rw_home_files : List String := []
  essential_etc_files : List String := []
  essential_etc_dirs : List String := []
  system_paths : List String := []
  ro_paths : List String := []
  rw_paths : List String := []
  «extends» : List String := []
  deriving Repr, DecidableEq

/-- `SandboxError` (the variants the resolver and the sandbox builder
produce; paths and messages carried as strings). -/
inductive SandboxError where
  | configError (msg : String)
  | envVarNotFound (name : String)
  | symlinkResolution (path : String)
  | cliNotFound (path : String)
  | dirNotFound (path : String)
  deriving Repr, DecidableEq

/-- `merge_filesystem_specs`: every list field is the base's entries
followed by the override's; `description` is the override's when present,
else the base's (`Option::or`); `extends` is cleared. -/
def mergeFilesystemSpecs (base override_spec : FilesystemSpec) :
    FilesystemSpec :=
  { description :=
      match override_spec.description with
      | some d => some d
      | none => base.description,
    ro_home_dirs := base.ro_home_dirs ++ override_spec.ro_home_dirs,
    rw_home_dirs := base.rw_home_dirs ++ override_spec.rw_home_dirs,
    ro_home_files := base.ro_home_files ++ override_spec.ro_home_files,
    rw_home_files := base.rw_home_files ++ override_spec.rw_home_files,
    essential_etc_files :=
      base.essential_etc_files ++ override_spec.essential_etc_files,
    essential_etc_dirs :=
      base.essential_etc_dirs ++ override_spec.essential_etc_dirs,
    system_paths := base.system_paths ++ override_spec.system_paths,
    ro_paths := base.ro_paths ++ override_spec.ro_paths,
    rw_paths := base.rw_paths ++ override_spec.rw_paths,
    «extends» := [] }

/-- `resolve_filesystem_recursive`: error when the name was already
visited, insert it, look the spec up, and when it extends parents resolve
each in order (threading the shared `visited` set, which is never pruned)
and merge parents before self. Rust's recursion depth is bounded because
every frame inserts a fresh name before recursing; the embedding mirrors
this with explicit fuel (`resolve_filesystem_config` supplies
`configs.length + 2`, an upper bound on that depth). -/
def resolveFilesystemRecursive (configs : List (String × FilesystemSpec)) :
    Nat → String → List String →
    Except SandboxError (FilesystemSpec × List String)
  | 0, _, _ => .error (.configError "recursion limit exceeded")
  | fuel + 1, name, visited =>
    if visited.contains name then
      .error (.configError ("Circular reference in filesystem config: " ++ name))
    else
      let visited := name :: visited
      match configs.lookup name with
      | none =>
        .error (.configError ("Filesystem config not found: " ++ name))
      | some spec =>
        if spec.«extends».isEmpty then .ok (spec, visited)
        else do
          let (merged, visited) ← spec.«extends».foldlM
            (fun acc parentName => do
              let (parent, visited') ←
                resolveFilesystemRecursive configs fuel parentName acc.2
              .ok (mergeFilesystemSpecs acc.1 parent, visited'))
            (({} : FilesystemSpec), visited)
          .ok (mergeFilesystemSpecs merged spec, visited)

/-- `resolve_filesystem_config`: run the recursive resolution with a fresh
`visited` set and return the flattened spec. -/
def resolveFilesystemConfig (configs : List (String × FilesystemSpec))
    (name : String) : Except SandboxError FilesystemSpec :=
  (resolveFilesystemRecursive configs (configs.length + 2) name []).map
    (fun r => r.1)

/-- `resolve_policy`: single-key lookup. -/
def resolvePolicy {α : Type} (policies : List (String × α)) (name : String) :
    Except SandboxError α :=
  match policies.lookup name with
  | some p => .ok p
  | none => .error (.configError ("Policy not found: " ++ name))

/-! ## The configuration validator
(`bwrap-proxy/src/config/validator.rs`) -/

/-- `ValidationError`. Rust's `CycleDetected` carries
`path.join(" -> ")`; the embedding keeps the path as the list being
joined. -/
inductive ValidationError where
  | cycleDetected (path : List String)
  | unknownGroup (group : String)
  | invalidPattern (pattern : String)
  deriving Repr, DecidableEq

/-- The group names a DFS from inside `groups` can ever visit: every key
plus every referenced child name. Used only to size the recursion fuel. -/
def groupNameUniverse (groups : List (String × HostGroup)) : List String :=
  groups.map (fun kv => kv.1) ++ groups.flatMap (fun kv => kv.2.groups)

/-- The `groups:` references of a name (Rust:
`groups.get(name).map(|g| &g.groups)`, empty when absent). -/
def childrenOf (groups : List (String × HostGroup)) (groupName : String) :
    List String :=
  match groups.lookup groupName with
  | some group => group.groups
  | none => []

/-- `ConfigValidator::dfs_cycle_check`: error with the extended path when
the node is already on the path, skip it when already visited, otherwise
mark it visited and recurse into its children with the node pushed onto
the path (the pop on return is implicit in passing `path` by value; the
`visited` set threads through). Rust's recursion depth is bounded by the
number of distinct names it can visit; the embedding mirrors this with
explicit fuel (`check_cycles` supplies `|groupNameUniverse| + 1`, an upper
bound on that depth, so the fuel clause is unreachable from
`check_cycles` — see `dfs_no_fuel_marker`). -/
def dfsCycleCheck (groups : List (String × HostGroup)) :
    Nat → String → List String → List String →
    Except ValidationError (List String)
  | 0, _, _, _ => .error (.cycleDetected [])
  | fuel + 1, groupName, visited, path =>
    if path.contains groupName then
      .error (.cycleDetected (path ++ [groupName]))
    else if visited.contains groupName then .ok visited
    else
      (childrenOf groups groupName).foldlM
        (fun vis child =>
          dfsCycleCheck groups fuel child vis (path ++ [groupName]))
        (groupName :: visited)

/-- `ConfigValidator::check_cycles`: run the DFS from every group name,
each with a fresh `visited` set and path. -/
def checkCycles (groups : List (String × HostGroup)) :
    Except ValidationError Unit :=
  groups.foldlM
    (fun _ kv =>
      (dfsCycleCheck groups ((groupNameUniverse groups).length + 1)
          kv.1 [] []).map (fun _ => ()))
    ()

/-- `ConfigValidator::validate_references`: every `groups:` reference must
name an existing group. -/
def validateReferences (groups : List (String × HostGroup)) :
    Except ValidationError Unit :=
  groups.foldlM
    (fun _ kv =>
      kv.2.groups.foldlM
        (fun _ refName =>
          if (groups.lookup refName).isSome then .ok ()
          else .error (.unknownGroup (kv.1 ++ " -> " ++ refName)))
        ())
    ()

/-- Does the character list contain two consecutive `*`
(Rust `pattern.contains("**")`)? -/
def hasDoubleStar : List Char → Bool
  | '*' :: '*' :: _ => true
  | _ :: rest => hasDoubleStar rest
  | [] => false

/-- A pattern `validate_patterns` rejects: `**`, an embedded NUL, or an
embedded newline. -/
def isInvalidPattern (pattern : String) : Bool :=
  hasDoubleStar pattern.toList ||
    pattern.toList.contains (Char.ofNat 0) || pattern.toList.contains '\n'

/-- The loop body of `validate_patterns` for one pattern of one group:
reject `**`, then reject embedded NUL or newline. -/
def scanPattern (gname : String) (pat : String) :
    Except ValidationError Unit :=
  if hasDoubleStar pat.toList then
    .error (.invalidPattern (pat ++ " in group " ++ gname))
  else if pat.toList.contains (Char.ofNat 0) ||
      pat.toList.contains '\n' then
    .error (.invalidPattern (pat ++ " in group " ++ gname))
  else .ok ()

/-- `ConfigValidator::validate_patterns`: scan every group's `hosts`
patterns (and only those — `hosts_deny` is not scanned) for `**`, NUL, or
newline. -/
def validatePatterns (groups : List (String × HostGroup)) :
    Except ValidationError Unit :=
  groups.foldlM
    (fun _ kv => kv.2.hosts.foldlM (fun _ pat => scanPattern kv.1 pat) ())
    ()

/-- `ConfigValidator::validate`: cycles, then references, then patterns. -/
def validateNetwork (network : NetworkConfig) :
    Except ValidationError Unit := do
  checkCycles network.groups
  validateReferences network.groups
  validatePatterns network.groups

/-! ## The sandbox builder
(`bwrap-core/src/mount.rs`, `bwrap-core/src/config/sandbox.rs`,
`bwrap-core/src/sandbox.rs`)

Paths are embedded as strings; `PathBuf::join` replaces the base when the
joined component is absolute. Filesystem probes (`exists`, `is_symlink`,
`canonicalize`), the current executable's directory, and the `PATH` and
`HOME` environment are abstracted into a `HostFs` oracle. -/

/-- `MountMode` (`mount.rs`). -/
inductive MountMode where
  | readOnly
  | readWrite
  | readOnlyTry
  | tmpfs
  | remountRo
  | symlink (target : String)
  | procMount
  | devBind
  deriving Repr, DecidableEq

/-- `MountPoint`: source and target path plus mode. -/
structure MountPoint where
  source : String
  target : String
  mode : MountMode
  deriving Repr, DecidableEq

namespace MountPoint

/-- `MountPoint::ro`. -/
def ro (source target : String) : MountPoint := ⟨source, target, .readOnly⟩

/-- `MountPoint::rw`. -/
def rw (source target : String) : MountPoint := ⟨source, target, .readWrite⟩

/-- `MountPoint::ro_try`. -/
def ro_try (source target : String) : MountPoint :=
  ⟨source, target, .readOnlyTry⟩

/-- `MountPoint::tmpfs`. -/
def tmpfs (target : String) : MountPoint := ⟨"", target, .tmpfs⟩

/-- `MountPoint::remount_ro`. -/
def remount_ro (target : String) : MountPoint := ⟨"", target, .remountRo⟩

/-- `MountPoint::symlink` (link target, link path). -/
def symlink (linkTarget linkPath : String) : MountPoint :=
  ⟨"", linkPath, .symlink linkTarget⟩

/-- `MountPoint::proc`. -/
def procfs : MountPoint := ⟨"", "/proc", .procMount⟩

/-- `MountPoint::dev_bind`. -/
def dev_bind : MountPoint := ⟨"/dev", "/dev", .devBind⟩

/-- `MountPoint::to_args`: the bwrap flags for this mount. -/
def to_args (m : MountPoint) : List String :=
  match m.mode with
  | .readOnly => ["--ro-bind", m.source, m.target]
  | .readWrite => ["--bind", m.source, m.target]
  | .readOnlyTry => ["--ro-bind-try", m.source, m.target]
  | .tmpfs => ["--tmpfs", m.target]
  | .remountRo => ["--remount-ro", m.target]
  | .symlink target => ["--symlink", target, m.target]
  | .procMount => ["--proc", m.target]
  | .devBind => ["--dev-bind", m.source, m.target]

end MountPoint

/-- `NetworkMode` (`config/sandbox.rs`): full, none, or filtered access
(the deprecated `allowed_domains` field is kept for fidelity). -/
inductive NetworkMode where
  | enabled
  | disabled
  | filtered (proxy_socket : String) (policy_name : String)
      (learning_output : Option String) (learning_mode : Option String)
      (allowed_domains : List String)
  deriving Repr, DecidableEq

/-- `HomeAccessMode`. -/
inductive HomeAccessMode where
  | safe
  | full
  deriving Repr, DecidableEq

/-- `ToolConfig` (`config/sandbox.rs`). -/
structure ToolConfig where
  name : String
  cli_path : String
  default_args : List String := []
  cli_args : List String := []
  help_text : String := ""
  deriving Repr, DecidableEq

/-- `SandboxConfig`. -/
structure SandboxConfig where
  tool_name : String
  policy_name : String
  tool_config : ToolConfig
  target_dir : String
  network_mode : NetworkMode
  home_access : HomeAccessMode
  additional_ro_paths : List String := []
  additional_rw_paths : List String := []
  env_vars : List (String × String) := []
  pass_through_env : List String := []
  verbose : Bool := false
  shell : Bool := false
  bw_relay_path : Option String := none
  deriving Repr, DecidableEq

/-- Is the path absolute (starts with `/`)? -/
def isAbsolutePath (p : String) : Bool :=
  match p.toList with
  | '/' :: _ => true
  | _ => false

/-- `PathBuf::join`: an absolute component replaces the base. -/
def pjoin (base component : String) : String :=
  if isAbsolutePath component then component else base ++ "/" ++ component

/-- The host-side effects the builder consults: filesystem probes, the
launcher's own directory, and the `PATH` and `HOME` environment. -/
structure HostFs where
  pathExists : String → Bool
  isSymlink : String → Bool
  canonicalize : String → Option String
  currentExeDir : Option String
  pathEnv : Option String
  homeEnv : Option String

/-- `SandboxBuilder::mount_with_symlink_resolution`: skip a missing path,
resolve a symlink through `canonicalize` (failure is fatal), bind
read-only-try otherwise. Returns the pushed mounts. -/
def mountWithSymlinkResolution (fs : HostFs) (path : String) :
    Except SandboxError (List MountPoint) :=
  if fs.pathExists path then
    if fs.isSymlink path then
      match fs.canonicalize path with
      | some realPath => .ok [MountPoint.ro_try realPath path]
      | none => .error (.symlinkResolution path)
    else .ok [MountPoint.ro_try path path]
  else .ok []

/-- `SandboxBuilder::mount_minimal_etc`: tmpfs `/etc`, the essential
files then directories (each through symlink resolution), then remount
`/etc` read-only. -/
def mountMinimalEtc (fs : HostFs) (spec : FilesystemSpec) :
    Except SandboxError (List MountPoint) := do
  let filePaths := spec.essential_etc_files.map (fun f => pjoin "/etc" f)
  let dirPaths := spec.essential_etc_dirs.map (fun d => pjoin "/etc" d)
  let fileMounts ← filePaths.foldlM
    (fun acc p => do
      let ms ← mountWithSymlinkResolution fs p
      .ok (acc ++ ms))
    []
  let dirMounts ← dirPaths.foldlM
    (fun acc p => do
      let ms ← mountWithSymlinkResolution fs p
      .ok (acc ++ ms))
    []
  .ok ([MountPoint.tmpfs "/etc"] ++ fileMounts ++ dirMounts ++
    [MountPoint.remount_ro "/etc"])

/-- `SandboxBuilder::mount_bw_relay`: an explicit `--bw-relay-path` must
exist; otherwise probe the launcher's directory and then every `PATH`
entry, and bind the first hit read-only at `/bw-relay`. Called from
`setup_mounts` in every network mode. -/
def mountBwRelay (fs : HostFs) (bw_relay_path : Option String) :
    Except SandboxError (List MountPoint) :=
  match bw_relay_path with
  | some explicitPath =>
    if fs.pathExists explicitPath then
      .ok [MountPoint.ro explicitPath "/bw-relay"]
    else .error (.cliNotFound explicitPath)
  | none =>
    let exeCandidates :=
      match fs.currentExeDir with
      | some d => [pjoin d "bw-relay"]
      | none => []
    let pathCandidates :=
      match fs.pathEnv with
      | some pe =>
        (splitOnChar ':' pe.toList).map
          (fun d => pjoin (String.mk d) "bw-relay")
      | none => []
    match (exeCandidates ++ pathCandidates).find?
        (fun p => fs.pathExists p) with
    | some relayPath => .ok [MountPoint.ro relayPath "/bw-relay"]
    | none => .error (.cliNotFound "bw-relay")

/-- The `env::var("HOME")` read of `setup_mounts`, through the oracle:
absence is the fatal `EnvVarNotFound` error. -/
def getHomeEnv (fs : HostFs) : Except SandboxError String :=
  match fs.homeEnv with
  | some h => .ok h
  | none => .error (.envVarNotFound "HOME")

/-- `SandboxBuilder::setup_mounts`: the full host-to-sandbox mount list, in
the order the code pushes it; `tmpExportDir` is the freshly created
`/tmp/bw-<tool>-<hex>` directory. -/
def setupMounts (fs : HostFs) (config : SandboxConfig)
    (spec : FilesystemSpec) (tmpExportDir : String) :
    Except SandboxError (List MountPoint) := do
  let home ← getHomeEnv fs
  let etcMounts ← mountMinimalEtc fs spec
  let homeMounts :=
    match config.home_access with
    | .full => [MountPoint.rw home home]
    | .safe =>
      (spec.ro_home_dirs.flatMap (fun d =>
        let p := pjoin home d
        if fs.pathExists p then [MountPoint.ro_try p p] else [])) ++
      (spec.rw_home_dirs.flatMap (fun d =>
        let p := pjoin home d
        if fs.pathExists p then [MountPoint.rw p p] else [])) ++
      (spec.ro_home_files.flatMap (fun f =>
        let p := pjoin home f
        if fs.pathExists p then [MountPoint.ro_try p p] else [])) ++
      (spec.rw_home_files.flatMap (fun f =>
        let p := pjoin home f
        if fs.pathExists p then [MountPoint.rw p p] else []))
  let configPathMounts :=
    (spec.ro_paths.flatMap (fun p =>
      if fs.pathExists p then [MountPoint.ro_try p p] else [])) ++
    (spec.rw_paths.flatMap (fun p =>
      if fs.pathExists p then [MountPoint.rw p p] else []))
  let systemMounts := ["/usr", "/lib", "/lib64"].flatMap (fun p =>
    if fs.pathExists p then [MountPoint.ro p p] else [])
  let relayMounts ← mountBwRelay fs config.bw_relay_path
  let additionalRo := config.additional_ro_paths.flatMap (fun p =>
    let resolved := if isAbsolutePath p then p else pjoin config.target_dir p
    if fs.pathExists resolved then [MountPoint.ro resolved resolved] else [])
  let additionalRw := config.additional_rw_paths.flatMap (fun p =>
    let resolved := if isAbsolutePath p then p else pjoin config.target_dir p
    if fs.pathExists resolved then [MountPoint.rw resolved resolved] else [])
  let proxyMounts :=
    match config.network_mode with
    | .filtered proxy_socket _ _ _ _ =>
      [MountPoint.rw proxy_socket "/proxy.sock"]
    | _ => []
  .ok ([MountPoint.rw tmpExportDir "/tmp"] ++ etcMounts ++ homeMounts ++
    configPathMounts ++ systemMounts ++
    [MountPoint.symlink "/usr/bin" "/bin"] ++
    [MountPoint.rw config.target_dir config.target_dir] ++ relayMounts ++
    [MountPoint.procfs, MountPoint.dev_bind] ++ additionalRo ++
    additionalRw ++ proxyMounts)

/-- The target the relay is told to execute — `/bin/sh -i <cli_args…>`
under `--shell`, else the tool CLI with its default and CLI args
(`build_command`'s `(target_binary, target_args)` pair). -/
def targetCommand (config : SandboxConfig) : String × List String :=
  if config.shell then ("/bin/sh", "-i" :: config.tool_config.cli_args)
  else (config.tool_config.cli_path,
    config.tool_config.default_args ++ config.tool_config.cli_args)

/-- `SandboxBuilder::build_command`: the full bwrap argument list. The
mount list and environment arguments are those produced by
`setup_mounts` / `setup_environment`, passed in as data. The final
command always goes through `/bw-relay` ("Always use bw-relay to execute
the target command"); only the `--socket /proxy.sock` pair is conditional
on `Filtered` mode. -/
def buildCommandArgs (config : SandboxConfig) (mounts : List MountPoint)
    (envArgs : List String) : List String :=
  ["--die-with-parent", "--unshare-pid", "--unshare-ipc"] ++
  (match config.network_mode with
   | .enabled => ["--share-net"]
   | .disabled => ["--unshare-net"]
   | .filtered _ _ _ _ _ => ["--unshare-net"]) ++
  (mounts.flatMap MountPoint.to_args) ++
  ["--chdir", config.target_dir, "--clearenv"] ++ envArgs ++
  ["/bw-relay"] ++
  (match config.network_mode with
   | .filtered _ _ _ _ _ => ["--socket", "/proxy.sock"]
   | _ => []) ++
  ["--", (targetCommand config).1] ++ (targetCommand config).2

/-- A concrete sandbox configuration with full (non-filtered) network
access: the tool at `/usr/bin/tool` with one default and one CLI
argument. -/
def c6cfg : SandboxConfig :=
  { tool_name := "tool"
    policy_name := "default"
    tool_config :=
      { name := "tool"
        cli_path := "/usr/bin/tool"
        default_args := ["d"]
        cli_args := ["c"] }
    target_dir := "/work"
    network_mode := .enabled
    home_access := .safe }

/-- A concrete host oracle: only `/usr` and the launcher-adjacent
`bw-relay` binary exist; `HOME` is `/home/u`. -/
def c6fs : HostFs :=
  { pathExists := fun p => p == "/usr" || p == "/opt/bw/bw-relay"
    isSymlink := fun _ => false
    canonicalize := fun _ => none
    currentExeDir := some "/opt/bw"
    pathEnv := none
    homeEnv := some "/home/u" }

/-! ## Cycle predicates and witness configurations for the validator and
resolver claims -/

/-- One edge of the HostGroup `groups:` reference graph: `u` is a
configured group whose `groups` list mentions `v`. -/
def groupStepB (groups : List (String × HostGroup)) (u v : String) : Bool :=
  match groups.lookup u with
  | some g => g.groups.contains v
  | none => false

/-- One edge of the FilesystemSpec `extends:` reference graph. -/
def extendsStepB (configs : List (String × FilesystemSpec)) (u v : String) :
    Bool :=
  match configs.lookup u with
  | some spec => spec.«extends».contains v
  | none => false

/-- `l` is a cycle of the `groups:` reference graph: nonempty, with an
edge from each entry to the next (cyclically). -/
def isGroupCycleB (groups : List (String × HostGroup)) (l : List String) :
    Bool :=
  !l.isEmpty &&
    (List.range l.length).all (fun i =>
      groupStepB groups (l.getD i "") (l.getD ((i + 1) % l.length) ""))

/-- `l` is a cycle of the `extends:` reference graph. -/
def isExtendsCycleB (configs : List (String × FilesystemSpec))
    (l : List String) : Bool :=
  !l.isEmpty &&
    (List.range l.length).all (fun i =>
      extendsStepB configs (l.getD i "") (l.getD ((i + 1) % l.length) ""))

/-- `l` is a chain of the `groups:` graph: consecutive entries are edges. -/
def groupChainB (groups : List (String × HostGroup)) : List String → Bool
  | [] => true
  | [_] => true
  | a :: b :: rest => groupStepB groups a b && groupChainB groups (b :: rest)

/-- Scenario S7's filesystem configs: `base` brings `.cargo`, `dev`
extends `base` and adds `.rustup`. -/
def s7cfg : List (String × FilesystemSpec) :=
  [("base", { ro_home_dirs := [".cargo"] }),
   ("dev", { «extends» := ["base"], ro_home_dirs := [".rustup"] })]

/-- A configuration with an `extends` cycle `b → c → b` beside an honest
leaf spec `a`, and no host groups at all. -/
def cycCfg : List (String × FilesystemSpec) :=
  [("a", {}),
   ("b", { «extends» := ["c"] }),
   ("c", { «extends» := ["b"] })]

/-- A network whose `groups:` graph has the cycle `ga → gb → ga`. -/
def gcNet : NetworkConfig :=
  { groups :=
      [("ga", { groups := ["gb"] }),
       ("gb", { groups := ["ga"] })],
    policies := [] }

/-- A network with a `**` wildcard inside a `hosts_deny` list (which
`validate_patterns` never scans). -/
def denyStarNet : NetworkConfig :=
  { groups := [("g", { hosts_deny := ["**"] })], policies := [] }

/-- A network with a `**` wildcard inside a `hosts` list. -/
def hostStarNet : NetworkConfig :=
  { groups := [("g", { hosts := ["**"] })], policies := [] }

/-! ## Theorems about the policy engine -/

/-- A fresh matcher matches no hostname with any specificity. -/
theorem HostMatcher.new_matchesWithSpecificity (host : String) :
    HostMatcher.new.matchesWithSpecificity host = none := rfl

/-- Inversion of `Except.bind` on a successful result. -/
theorem except_bind_ok {ε α β : Type} {x : Except ε α} {f : α → Except ε β}
    {b : β} (h : x.bind f = .ok b) : ∃ a, x = .ok a ∧ f a = .ok b := by
  cases x with
  | error e => simp [Except.bind] at h
  | ok a => exact ⟨a, rfl, h⟩

/-- A failed computation propagates through `Except` bind. -/
theorem except_error_bind {ε α β : Type} (e : ε) (f : α → Except ε β) :
    (Except.error e >>= f) = Except.error e := rfl

/-- A successful computation feeds its value through `Except` bind. -/
theorem except_ok_bind {ε α β : Type} (a : α) (f : α → Except ε β) :
    (Except.ok a >>= f) = f a := rfl

/-- Inversion of `PolicyEngine::from_policy` on success: the looked-up
policy exists, the engine copies its mode and `allow_all` flag, and in the
`allow_all` case both matchers are empty. -/
theorem fromPolicy_ok_inv {policyName : String} {net : NetworkConfig}
    {e : PolicyEngine} (h : PolicyEngine.fromPolicy policyName net = .ok e) :
    ∃ p, net.policies.lookup policyName = some p ∧
      e.mode = p.mode ∧ e.allow_all = p.allow_all ∧
      (p.allow_all = true →
        e = ⟨HostMatcher.new, HostMatcher.new, p.mode, true⟩) := by
  unfold PolicyEngine.fromPolicy at h
  cases hp : net.policies.lookup policyName with
  | none => rw [hp] at h; exact absurd h (by simp)
  | some p =>
    rw [hp] at h
    refine ⟨p, rfl, ?_⟩
    by_cases hall : p.allow_all
    · simp [hall] at h
      subst h
      simp [hall]
    · simp [hall, bind] at h
      obtain ⟨⟨am, pr1⟩, -, h⟩ := except_bind_ok h
      obtain ⟨⟨dm, pr2⟩, -, h⟩ := except_bind_ok h
      simp [pure, Except.pure] at h
      subst h
      simp [hall]

/-- C1. Longest-match arbitration: for every engine constructed by
`PolicyEngine::from_policy` and every host matched by both the allow and
the deny matcher — with specificities `a` and `d`, each the label count of
the matched host itself, maximum over matching patterns — `allow(h, ip)`
returns true iff `a > d` (deny wins on a tie). -/
theorem longest_match_arbitration {policyName : String} {net : NetworkConfig}
    {e : PolicyEngine} (host : String) (ip : Option IpAddr) {a d : Nat}
    (heng : PolicyEngine.fromPolicy policyName net = .ok e)
    (ha : e.allow_matcher.matchesWithSpecificity host = some a)
    (hd : e.deny_matcher.matchesWithSpecificity host = some d) :
    e.allow host ip = true ↔ a > d := by
  obtain ⟨p, -, -, hflag, hallcase⟩ := fromPolicy_ok_inv heng
  have hfalse : e.allow_all = false := by
    by_contra htrue
    have : p.allow_all = true := by
      rw [← hflag]; exact Bool.of_not_eq_false htrue
    rw [hallcase this] at ha
    simp [HostMatcher.new_matchesWithSpecificity] at ha
  simp only [PolicyEngine.allow, hfalse, Bool.false_eq_true, if_false, ha, hd]
  simp

/-- Closed witness for `longest_match_arbitration`: host
`internal.anthropic.com` under spec scenario S3's policy — both sides
match with specificity 3 and the engine denies (tie). -/
theorem longest_match_arbitration_witness :
    PolicyEngine.fromPolicy "restrictive" s3net = .ok s3engine ∧
    s3engine.allow_matcher.matchesWithSpecificity "internal.anthropic.com" = some 3 ∧
    s3engine.deny_matcher.matchesWithSpecificity "internal.anthropic.com" = some 3 ∧
    (s3engine.allow "internal.anthropic.com" none = true ↔ 3 > 3) :=
  ⟨by rfl, by decide, by decide,
   @longest_match_arbitration "restrictive" s3net s3engine
     "internal.anthropic.com" none 3 3 (by rfl) (by decide) (by decide)⟩

/-- C2. Default fallback: for every engine constructed by `from_policy`
from a policy without the `allow_all` bypass, and every host matched by
neither matcher (and, with an IP supplied, matched by no IP range), the
decision equals the policy's configured default: true iff the default is
allow (`PolicyMode::Deny`, "allow by default"). -/
theorem default_fallback {policyName : String} {net : NetworkConfig}
    {e : PolicyEngine} {p : Policy} (host : String) (ip : Option IpAddr)
    (heng : PolicyEngine.fromPolicy policyName net = .ok e)
    (hp : net.policies.lookup policyName = some p)
    (hnall : p.allow_all = false)
    (ha : e.allow_matcher.matchesWithSpecificity host = none)
    (hd : e.deny_matcher.matchesWithSpecificity host = none)
    (hai : (ip.map (fun a => e.allow_matcher.matchesIp a)).getD false = false)
    (hdi : (ip.map (fun a => e.deny_matcher.matchesIp a)).getD false = false) :
    e.allow host ip = p.default_is_allow := by
  obtain ⟨p', hp', hmode, hflag, -⟩ := fromPolicy_ok_inv heng
  rw [hp] at hp'
  injection hp' with hp'
  subst hp'
  have hfalse : e.allow_all = false := by rw [hflag, hnall]
  simp only [PolicyEngine.allow, hfalse, Bool.false_eq_true, if_false, ha, hd,
    hai, hdi, Policy.default_is_allow, hmode]
  simp

/-- Closed witness for `default_fallback`: `example.com` matches nothing
in scenario S3's policy, whose mode `Allow` means default deny. -/
theorem default_fallback_witness :
    PolicyEngine.fromPolicy "restrictive" s3net = .ok s3engine ∧
    s3engine.allow_matcher.matchesWithSpecificity "example.com" = none ∧
    s3engine.deny_matcher.matchesWithSpecificity "example.com" = none ∧
    s3engine.allow "example.com" none = s3policy.default_is_allow :=
  ⟨by rfl, by decide, by decide,
   @default_fallback "restrictive" s3net s3engine s3policy "example.com" none
     (by rfl) (by rfl) (by rfl) (by decide) (by decide) (by rfl) (by rfl)⟩

/-- C3 counterexample. The `ip` argument is *not* ignored: under `ipNet`'s
policy (default allow, deny group holding the CIDR range `10.0.0.0/8`),
`allow("example.com", Some(10.0.0.1))` is false while
`allow("example.com", None)` is true. -/
theorem ip_argument_counterexample :
    (PolicyEngine.fromPolicy "p" ipNet).map
      (fun e => (e.allow "example.com" (some ip10001),
                 e.allow "example.com" none)) = .ok (false, true) := by
  rfl

/-- C3 amended. The decision ignores `ip` whenever neither matcher holds
any IP range (in particular for engines built only from host patterns):
hostname matching alone then decides, so `allow(h, ip) = allow(h, None)`.
When ranges are present, `ip` participates exactly when no hostname
pattern matches. -/
theorem ip_ignored_without_ranges (e : PolicyEngine) (host : String)
    (ip : Option IpAddr)
    (h4a : e.allow_matcher.ipv4Ranges = []) (h6a : e.allow_matcher.ipv6Ranges = [])
    (h4d : e.deny_matcher.ipv4Ranges = []) (h6d : e.deny_matcher.ipv6Ranges = []) :
    e.allow host ip = e.allow host none := by
  have hnone : ∀ m : HostMatcher, m.ipv4Ranges = [] → m.ipv6Ranges = [] →
      ∀ a : IpAddr, m.matchesIp a = false := by
    intro m h4 h6 a
    cases a <;> simp [HostMatcher.matchesIp, h4, h6]
  have hai : (ip.map (fun a => e.allow_matcher.matchesIp a)).getD false = false := by
    cases ip with
    | none => rfl
    | some a => simp [hnone _ h4a h6a a]
  have hdi : (ip.map (fun a => e.deny_matcher.matchesIp a)).getD false = false := by
    cases ip with
    | none => rfl
    | some a => simp [hnone _ h4d h6d a]
  simp only [PolicyEngine.allow, hai, hdi]
  cases e.allow_all
  · cases hA : e.allow_matcher.matchesWithSpecificity host <;>
      cases hB : e.deny_matcher.matchesWithSpecificity host <;> simp
  · simp

/-- Closed witness for `ip_ignored_without_ranges`: scenario S3's engine
(host patterns only) treats `Some(10.0.0.1)` like `None`. -/
theorem ip_ignored_without_ranges_witness :
    s3engine.allow_matcher.ipv4Ranges = [] ∧
    s3engine.allow "api.anthropic.com" (some ip10001) =
      s3engine.allow "api.anthropic.com" none :=
  ⟨by decide,
   ip_ignored_without_ranges s3engine "api.anthropic.com" (some ip10001)
     (by decide) (by decide) (by decide) (by decide)⟩

/-- C10. Allow-all bypass: when the looked-up policy has `allow_all` set,
`from_policy` returns the bypass engine — both matchers empty, so any
configured `deny_groups` have no effect — and that engine's `allow`
returns true for every host and every ip. -/
theorem allow_all_bypass {policyName : String} {net : NetworkConfig}
    {p : Policy} (hp : net.policies.lookup policyName = some p)
    (hall : p.allow_all = true) :
    PolicyEngine.fromPolicy policyName net =
      .ok ⟨HostMatcher.new, HostMatcher.new, p.mode, true⟩ ∧
    ∀ (host : String) (ip : Option IpAddr),
      PolicyEngine.allow ⟨HostMatcher.new, HostMatcher.new, p.mode, true⟩
        host ip = true := by
  constructor
  · unfold PolicyEngine.fromPolicy
    rw [hp]
    simp [hall]
  · intro host ip
    rfl

/-- Closed witness for `allow_all_bypass`: the `open` policy of `openNet`
carries a deny group matching `a.x.com`, yet the engine allows it. -/
theorem allow_all_bypass_witness :
    PolicyEngine.fromPolicy "open" openNet =
      .ok ⟨HostMatcher.new, HostMatcher.new, openPolicy.mode, true⟩ ∧
    PolicyEngine.allow ⟨HostMatcher.new, HostMatcher.new, openPolicy.mode, true⟩
      "a.x.com" none = true :=
  ⟨(@allow_all_bypass "open" openNet openPolicy (by rfl) (by rfl)).1,
   (@allow_all_bypass "open" openNet openPolicy (by rfl) (by rfl)).2
     "a.x.com" none⟩

/-! ## Theorems about the filter daemon's request handling -/

/-- C4 counterexample. `CONNECT example.com 443` without the trailing
newline is not exactly `CONNECT <host> <port>\n`, yet the daemon accepts
it and replies `OK\n` (with a succeeding dial), not `ERROR\n`. -/
theorem uds_protocol_counterexample :
    isExactConnectLine "CONNECT example.com 443" = false ∧
    handleClient none false (fun _ _ => true) "CONNECT example.com 443" =
      ⟨some "OK\n", [], []⟩ :=
  ⟨by rfl, by rfl⟩

/-- C4 amended. The daemon replies `ERROR\n` exactly for the nonempty
received byte sequences whose whitespace-trimmed decoding fails to parse
as `CONNECT <host> <port>` with a decimal `u16` port: an empty read is
closed with no reply at all, and a request that parses after trimming —
even without the trailing newline, or with extra surrounding whitespace —
is accepted and answered `BLOCKED\n`, `OK\n`, or `FAIL\n` instead. -/
theorem uds_error_reply_characterization (engine : Option PolicyEngine)
    (recorderPresent : Bool) (tcpConnect : String → Nat → Bool)
    (input : String) :
    (handleClient engine recorderPresent tcpConnect input).reply =
        some "ERROR\n" ↔
      input.isEmpty = false ∧ requestParses input = false := by
  unfold handleClient requestParses
  cases hemp : input.isEmpty
  · simp only [Bool.false_eq_true, if_false]
    cases hpre : "CONNECT ".toList.isPrefixOf (trimChars input.toList)
    · simp [hpre]
    · simp only [hpre, not_true, if_false, Bool.true_and]
      cases hs : splitWhitespaceL (trimChars input.toList) with
      | nil => simp
      | cons a t =>
        cases t with
        | nil => simp
        | cons b t2 =>
          cases t2 with
          | nil => simp
          | cons c t3 =>
            cases t3 with
            | cons d t4 => simp
            | nil =>
              cases hport : parseU16 c with
              | none => simp [hport]
              | some port =>
                cases engine with
                | none =>
                  by_cases htcp : tcpConnect (String.mk b) port <;>
                    simp [hport, htcp]
                | some e =>
                  by_cases hallow : e.allow (String.mk b) none
                  · by_cases htcp : tcpConnect (String.mk b) port <;>
                      simp [hport, hallow, htcp]
                  · simp [hport, hallow]
  · simp [hemp]

/-! ## Theorems about the resolver (extends composition, extends cycles) -/

/-- C9. Extends composition: `merge_filesystem_specs` concatenates every
list field parents-first and takes `description` from the override when
present (else the parent), and resolving scenario S7's `dev` spec yields
`ro_home_dirs = [".cargo", ".rustup"]` with `extends` cleared. -/
theorem extends_composition :
    (∀ a b : FilesystemSpec,
      (mergeFilesystemSpecs a b).ro_home_dirs =
          a.ro_home_dirs ++ b.ro_home_dirs ∧
      (mergeFilesystemSpecs a b).rw_home_dirs =
          a.rw_home_dirs ++ b.rw_home_dirs ∧
      (mergeFilesystemSpecs a b).ro_home_files =
          a.ro_home_files ++ b.ro_home_files ∧
      (mergeFilesystemSpecs a b).rw_home_files =
          a.rw_home_files ++ b.rw_home_files ∧
      (mergeFilesystemSpecs a b).essential_etc_files =
          a.essential_etc_files ++ b.essential_etc_files ∧
      (mergeFilesystemSpecs a b).essential_etc_dirs =
          a.essential_etc_dirs ++ b.essential_etc_dirs ∧
      (mergeFilesystemSpecs a b).system_paths =
          a.system_paths ++ b.system_paths ∧
      (mergeFilesystemSpecs a b).ro_paths = a.ro_paths ++ b.ro_paths ∧
      (mergeFilesystemSpecs a b).rw_paths = a.rw_paths ++ b.rw_paths ∧
      (mergeFilesystemSpecs a b).description =
          (match b.description with
           | some d => some d
           | none => a.description) ∧
      (mergeFilesystemSpecs a b).«extends» = []) ∧
    resolveFilesystemConfig s7cfg "dev" =
      .ok { ro_home_dirs := [".cargo", ".rustup"] } :=
  ⟨fun _ _ => ⟨rfl, rfl, rfl, rfl, rfl, rfl, rfl, rfl, rfl, rfl, rfl⟩, rfl⟩

/-- From a cycle membership, extract the spec and the on-cycle successor. -/
theorem cycle_member_extends_step {configs : List (String × FilesystemSpec)}
    {l : List String} {name : String}
    (hcyc : isExtendsCycleB configs l = true) (hmem : name ∈ l) :
    ∃ spec next, configs.lookup name = some spec ∧
      next ∈ spec.«extends» ∧ next ∈ l := by
  unfold isExtendsCycleB at hcyc
  rw [Bool.and_eq_true] at hcyc
  obtain ⟨hne, hall⟩ := hcyc
  rw [List.all_eq_true] at hall
  obtain ⟨i, hi, hget⟩ := List.mem_iff_getElem.mp hmem
  have hstep := hall i (List.mem_range.mpr hi)
  have hnext : (i + 1) % l.length < l.length :=
    Nat.mod_lt _ (by omega)
  rw [List.getD_eq_getElem l "" hi, List.getD_eq_getElem l "" hnext, hget]
    at hstep
  unfold extendsStepB at hstep
  cases hlook : configs.lookup name with
  | none => rw [hlook] at hstep; exact absurd hstep (by simp)
  | some spec =>
    rw [hlook] at hstep
    refine ⟨spec, l[(i + 1) % l.length], rfl, ?_, List.getElem_mem hnext⟩
    exact List.mem_of_elem_eq_true hstep

/-- If one parent in the list always fails to resolve, the parent fold of
`resolve_filesystem_recursive` cannot succeed (errors propagate). -/
theorem resolve_fold_fails {configs : List (String × FilesystemSpec)}
    {fuel : Nat} {x : String}
    (hfail : ∀ (v : List String) r,
      resolveFilesystemRecursive configs fuel x v ≠ .ok r) :
    ∀ (parents : List String), x ∈ parents →
      ∀ (acc : FilesystemSpec × List String) res,
        parents.foldlM
          (fun acc parentName => do
            let (parent, visited') ←
              resolveFilesystemRecursive configs fuel parentName acc.2
            .ok (mergeFilesystemSpecs acc.1 parent, visited'))
          acc ≠ .ok res := by
  intro parents
  induction parents with
  | nil => intro hx; exact absurd hx (List.not_mem_nil x)
  | cons p ps ih =>
    intro hx acc res hok
    rw [List.foldlM_cons] at hok
    obtain ⟨b, hb, hrest⟩ := except_bind_ok hok
    cases hres : resolveFilesystemRecursive configs fuel p acc.2 with
    | error e =>
      rw [hres, except_error_bind] at hb
      exact absurd hb (by simp)
    | ok pr =>
      rcases List.mem_cons.mp hx with hxp | hxs
      · subst hxp; exact hfail _ _ hres
      · exact ih hxs _ res hrest

/-- Resolving any name that lies on an `extends` cycle fails, whatever the
fuel and the incoming `visited` set. -/
theorem resolve_on_cycle_fails {configs : List (String × FilesystemSpec)}
    {l : List String} (hcyc : isExtendsCycleB configs l = true) :
    ∀ (fuel : Nat) (name : String), name ∈ l →
      ∀ (v : List String) r,
        resolveFilesystemRecursive configs fuel name v ≠ .ok r := by
  intro fuel
  induction fuel with
  | zero =>
    intro name _ v r h
    exact absurd h (by simp [resolveFilesystemRecursive])
  | succ fuel ih =>
    intro name hmem v r h
    obtain ⟨spec, next, hlook, hnext, hnextl⟩ :=
      cycle_member_extends_step hcyc hmem
    unfold resolveFilesystemRecursive at h
    have hnonempty : spec.«extends».isEmpty = false := by
      cases hext : spec.«extends» with
      | nil => rw [hext] at hnext; exact absurd hnext (List.not_mem_nil _)
      | cons a as => rfl
    cases hv : v.contains name with
    | true =>
      have hv' : name ∈ v := List.mem_of_elem_eq_true hv
      simp [hv'] at h
    | false =>
      simp only [hv, Bool.false_eq_true, if_false, hlook, hnonempty] at h
      obtain ⟨⟨merged, vis⟩, hfold, -⟩ := except_bind_ok h
      exact resolve_fold_fails (fun w r' => ih next hnextl w r')
        spec.«extends» hnext _ _ hfold

/-! ## Theorems about the validator: wildcard safety -/

/-- C8 counterexample. A `**` pattern sitting in a group's `hosts_deny`
list is, by the claim's own criterion, invalid — yet
`ConfigValidator::validate` accepts the configuration. -/
theorem wildcard_safety_counterexample :
    isInvalidPattern "**" = true ∧
    (denyStarNet.groups.lookup "g").map (fun g => g.hosts_deny) =
      some ["**"] ∧
    validateNetwork denyStarNet = .ok () :=
  ⟨rfl, rfl, rfl⟩

/-- An invalid pattern makes `scanPattern` fail with the formatted
`InvalidPattern` error. -/
theorem scanPattern_bad {gname pat : String}
    (hbad : isInvalidPattern pat = true) :
    scanPattern gname pat =
      .error (.invalidPattern (pat ++ " in group " ++ gname)) := by
  unfold scanPattern
  cases hdd : hasDoubleStar pat.toList with
  | true => rfl
  | false =>
    have hc : (pat.toList.contains (Char.ofNat 0) ||
        pat.toList.contains '\n') = true := by
      unfold isInvalidPattern at hbad
      rw [hdd, Bool.false_or] at hbad
      exact hbad
    rw [if_neg Bool.false_ne_true, if_pos hc]

/-- `scanPattern` only ever produces `InvalidPattern` errors. -/
theorem scanPattern_err_shape {gname pat : String} {e : ValidationError}
    (h : scanPattern gname pat = .error e) :
    ∃ m, e = .invalidPattern m := by
  unfold scanPattern at h
  cases hdd : hasDoubleStar pat.toList with
  | true =>
    rw [hdd, if_pos rfl] at h
    cases h
    exact ⟨pat ++ " in group " ++ gname, rfl⟩
  | false =>
    rw [hdd, if_neg Bool.false_ne_true] at h
    cases hc : (pat.toList.contains (Char.ofNat 0) ||
        pat.toList.contains '\n') with
    | true =>
      rw [hc, if_pos rfl] at h
      cases h
      exact ⟨pat ++ " in group " ++ gname, rfl⟩
    | false =>
      rw [hc, if_neg Bool.false_ne_true] at h
      cases h

/-- The per-group pattern scan fails when the group's `hosts` list holds
an invalid pattern. -/
theorem hosts_scan_fails {gname : String} {pat : String}
    (hbad : isInvalidPattern pat = true) :
    ∀ (hosts : List String), pat ∈ hosts →
      ∃ m, hosts.foldlM (fun _ p => scanPattern gname p) () =
        Except.error (.invalidPattern m) := by
  intro hosts
  induction hosts with
  | nil => intro hx; exact absurd hx (List.not_mem_nil pat)
  | cons h hs ih =>
    intro hx
    cases hscan : scanPattern gname h with
    | error e =>
      obtain ⟨m, rfl⟩ := scanPattern_err_shape hscan
      exact ⟨m, by rw [List.foldlM_cons, hscan, except_error_bind]⟩
    | ok u =>
      cases u
      have hne : pat ≠ h := by
        rintro rfl
        rw [scanPattern_bad hbad] at hscan
        exact absurd hscan (by simp)
      obtain ⟨m, hm⟩ := ih (by
        rcases List.mem_cons.mp hx with h1 | h2
        · exact absurd h1 hne
        · exact h2)
      exact ⟨m, by rw [List.foldlM_cons, hscan, except_ok_bind, hm]⟩

/-- The inner pattern scan only ever produces `InvalidPattern` errors. -/
theorem hosts_scan_err_shape {gname : String} :
    ∀ (hosts : List String) (e : ValidationError),
      hosts.foldlM (fun _ p => scanPattern gname p) () = Except.error e →
      ∃ m, e = .invalidPattern m := by
  intro hosts
  induction hosts with
  | nil =>
    intro e h
    simp [List.foldlM, pure, Except.pure] at h
  | cons h hs ih =>
    intro e herr
    rw [List.foldlM_cons] at herr
    cases hscan : scanPattern gname h with
    | error e' =>
      rw [hscan, except_error_bind] at herr
      cases herr
      exact scanPattern_err_shape hscan
    | ok u =>
      cases u
      rw [hscan, except_ok_bind] at herr
      exact ih e herr

/-- `validate_patterns` fails whenever some group's `hosts` list holds an
invalid pattern, and the failure is an `InvalidPattern` error. -/
theorem validatePatterns_fails {gname : String} {g : HostGroup}
    {pat : String} (hpat : pat ∈ g.hosts)
    (hbad : isInvalidPattern pat = true) :
    ∀ (groups : List (String × HostGroup)), (gname, g) ∈ groups →
      ∃ m, validatePatterns groups = .error (.invalidPattern m) := by
  intro groups
  induction groups with
  | nil => intro hmem; exact absurd hmem (List.not_mem_nil _)
  | cons kv gs ih =>
    intro hmem
    unfold validatePatterns at ih ⊢
    cases hscan : kv.2.hosts.foldlM (fun _ p => scanPattern kv.1 p) () with
    | error e =>
      obtain ⟨m, rfl⟩ := hosts_scan_err_shape kv.2.hosts e hscan
      exact ⟨m, by rw [List.foldlM_cons, hscan, except_error_bind]⟩
    | ok u =>
      cases u
      rcases List.mem_cons.mp hmem with heq | hgs
      · subst heq
        obtain ⟨m, hm⟩ := hosts_scan_fails hbad g.hosts hpat
        exact absurd (hscan.symm.trans hm) (by simp)
      · obtain ⟨m, hm⟩ := ih hgs
        exact ⟨m, by rw [List.foldlM_cons, hscan, except_ok_bind, hm]⟩

/-- A failing pattern scan makes the whole of `ConfigValidator::validate`
fail, whatever the earlier stages produced. -/
theorem validateNetwork_not_ok_of_patterns {ng : NetworkConfig} {m : String}
    (hp : validatePatterns ng.groups = .error (.invalidPattern m)) :
    validateNetwork ng ≠ .ok () := by
  intro hok
  unfold validateNetwork at hok
  cases hc : checkCycles ng.groups with
  | error e => rw [hc, except_error_bind] at hok; exact absurd hok (by simp)
  | ok u =>
    cases u
    rw [hc, except_ok_bind] at hok
    cases hr : validateReferences ng.groups with
    | error e =>
      rw [hr, except_error_bind] at hok
      exact absurd hok (by simp)
    | ok u =>
      cases u
      rw [hr, except_ok_bind, hp] at hok
      exact absurd hok (by simp)

/-- C8 amended. Wildcard safety holds for the `hosts` lists only: a `**`,
NUL, or newline pattern in any group's `hosts` list makes
`validate_patterns` — and hence `ConfigValidator::validate` — reject the
configuration with an invalid-pattern error; `hosts_deny` patterns are
never scanned (see the counterexample). -/
theorem wildcard_safety_hosts_only {ng : NetworkConfig} {gname : String}
    {g : HostGroup} {pat : String} (hmem : (gname, g) ∈ ng.groups)
    (hpat : pat ∈ g.hosts) (hbad : isInvalidPattern pat = true) :
    (∃ m, validatePatterns ng.groups = .error (.invalidPattern m)) ∧
    validateNetwork ng ≠ .ok () := by
  obtain ⟨m, hm⟩ := validatePatterns_fails hpat hbad ng.groups hmem
  exact ⟨⟨m, hm⟩, validateNetwork_not_ok_of_patterns hm⟩

/-- Closed witness for `wildcard_safety_hosts_only`: a `**` in a `hosts`
list is rejected. -/
theorem wildcard_safety_hosts_only_witness :
    (("g", ({ hosts := ["**"] } : HostGroup)) ∈ hostStarNet.groups ∧
      "**" ∈ ({ hosts := ["**"] } : HostGroup).hosts ∧
      isInvalidPattern "**" = true) ∧
    ((∃ m, validatePatterns hostStarNet.groups =
        .error (.invalidPattern m)) ∧
      validateNetwork hostStarNet ≠ .ok ()) :=
  ⟨⟨by decide, by decide, by decide⟩,
   @wildcard_safety_hosts_only hostStarNet "g" { hosts := ["**"] } "**"
     (by decide) (by decide) (by decide)⟩

/-! ## Theorems about the validator: cycle detection

The completeness argument (`check_cycles` errors on every cyclic
configuration) follows the classic DFS proof: a run that returns `Ok`
admits a finish order `L` in which every node's successors appear
strictly earlier, and no cycle can embed into such an order. -/

/-- Conversion: `List.contains` is membership (strings compare by `==`,
which is lawful). -/
theorem contains_eq_false_iff {l : List String} {a : String} :
    l.contains a = false ↔ a ∉ l := by
  constructor
  · intro h hmem
    exact absurd ((List.elem_eq_true_of_mem hmem).symm.trans h) (by simp)
  · intro h
    cases hc : l.contains a with
    | false => rfl
    | true => exact absurd (List.mem_of_elem_eq_true hc) h

/-- A filter by a stronger predicate is no longer. -/
theorem filter_length_le_of_imp {α : Type} (l : List α) {p q : α → Bool}
    (h : ∀ x, q x = true → p x = true) :
    (l.filter q).length ≤ (l.filter p).length := by
  induction l with
  | nil => exact Nat.le_refl 0
  | cons a as ih =>
    cases hq : q a with
    | true =>
      rw [List.filter_cons_of_pos hq, List.filter_cons_of_pos (h a hq)]
      exact Nat.succ_le_succ ih
    | false =>
      rw [List.filter_cons_of_neg (by rw [hq]; exact Bool.false_ne_true)]
      cases hp : p a with
      | true =>
        rw [List.filter_cons_of_pos hp]
        exact Nat.le_succ_of_le ih
      | false =>
        rw [List.filter_cons_of_neg (by rw [hp]; exact Bool.false_ne_true)]
        exact ih

/-- A filter by a strictly stronger predicate (dropping a present element
the weaker one keeps) is strictly shorter. -/
theorem filter_length_lt_of_imp {α : Type} {p q : α → Bool}
    (h : ∀ x, q x = true → p x = true) (a : α)
    (hpa : p a = true) (hqa : q a = false) :
    ∀ (l : List α), a ∈ l →
      (l.filter q).length < (l.filter p).length := by
  intro l
  induction l with
  | nil => intro hmem; exact absurd hmem (List.not_mem_nil a)
  | cons b bs ih =>
    intro hmem
    by_cases hb : b = a
    · subst hb
      rw [List.filter_cons_of_pos hpa,
        List.filter_cons_of_neg (by rw [hqa]; exact Bool.false_ne_true)]
      exact Nat.lt_succ_of_le (filter_length_le_of_imp bs h)
    · have hbs : a ∈ bs := by
        rcases List.mem_cons.mp hmem with h1 | h2
        · exact absurd h1.symm hb
        · exact h2
      cases hqb : q b with
      | true =>
        rw [List.filter_cons_of_pos hqb,
          List.filter_cons_of_pos (h b hqb)]
        exact Nat.succ_lt_succ (ih hbs)
      | false =>
        rw [List.filter_cons_of_neg (by rw [hqb]; exact Bool.false_ne_true)]
        cases hpb : p b with
        | true =>
          rw [List.filter_cons_of_pos hpb]
          exact Nat.lt_succ_of_lt (ih hbs)
        | false =>
          rw [List.filter_cons_of_neg
            (by rw [hpb]; exact Bool.false_ne_true)]
          exact ih hbs

/-- Number of universe names not yet visited: the DFS recursion measure. -/
def unvisitedCount (groups : List (String × HostGroup))
    (visited : List String) : Nat :=
  ((groupNameUniverse groups).filter
    (fun x => ! visited.contains x)).length

/-- Visiting a fresh universe name strictly shrinks the measure. -/
theorem unvisitedCount_lt {groups : List (String × HostGroup)}
    {visited : List String} {name : String}
    (hU : name ∈ groupNameUniverse groups) (hv : name ∉ visited) :
    unvisitedCount groups (name :: visited) < unvisitedCount groups visited := by
  apply filter_length_lt_of_imp (a := name) _ _ _ _ hU
  · intro x hx
    rw [Bool.not_eq_eq_eq_not, Bool.not_true] at hx ⊢
    rw [contains_eq_false_iff] at hx ⊢
    intro hxv
    exact hx (List.mem_cons_of_mem name hxv)
  · rw [Bool.not_eq_eq_eq_not, Bool.not_true, contains_eq_false_iff]
    exact hv
  · rw [Bool.not_eq_eq_eq_not, Bool.not_false]
    exact List.elem_eq_true_of_mem (List.mem_cons_self name visited)

/-- The measure is antitone in the visited set. -/
theorem unvisitedCount_mono {groups : List (String × HostGroup)}
    {v w : List String} (h : ∀ x, x ∈ v → x ∈ w) :
    unvisitedCount groups w ≤ unvisitedCount groups v := by
  apply filter_length_le_of_imp
  intro x hx
  rw [Bool.not_eq_eq_eq_not, Bool.not_true, contains_eq_false_iff] at hx ⊢
  intro hxv
  exact hx (h x hxv)

/-- Every child referenced from a configured group lies in the universe. -/
theorem childrenOf_mem_universe {groups : List (String × HostGroup)}
    {n c : String} (h : c ∈ childrenOf groups n) :
    c ∈ groupNameUniverse groups := by
  unfold childrenOf at h
  cases hlook : groups.lookup n with
  | none => rw [hlook] at h; exact absurd h (List.not_mem_nil c)
  | some g =>
    rw [hlook] at h
    have hmem : (n, g) ∈ groups := by
      obtain ⟨l₁, l₂, heq, -⟩ := List.lookup_eq_some_iff.mp hlook
      rw [heq]
      exact List.mem_append_right l₁ (List.mem_cons_self _ _)
    unfold groupNameUniverse
    exact List.mem_append_right _
      (List.mem_flatMap.mpr ⟨(n, g), hmem, h⟩)

/-- An edge of the reference graph is exactly membership in the source's
child list. -/
theorem groupStepB_iff_childrenOf {groups : List (String × HostGroup)}
    {u c : String} :
    groupStepB groups u c = true ↔ c ∈ childrenOf groups u := by
  unfold groupStepB childrenOf
  cases groups.lookup u with
  | none => simp
  | some g =>
    constructor
    · exact fun h => List.mem_of_elem_eq_true h
    · exact fun h => List.elem_eq_true_of_mem h

/-- The DFS only ever grows the visited set. -/
theorem dfs_ok_mono (groups : List (String × HostGroup)) :
    ∀ (fuel : Nat) (name : String) (v p v' : List String),
      dfsCycleCheck groups fuel name v p = .ok v' →
      ∀ x, x ∈ v → x ∈ v' := by
  intro fuel
  induction fuel with
  | zero =>
    intro name v p v' hok
    exact absurd hok (by simp [dfsCycleCheck])
  | succ fuel ih =>
    intro name v p v' hok
    unfold dfsCycleCheck at hok
    cases hpc : p.contains name with
    | true =>
      have hm := List.mem_of_elem_eq_true hpc
      simp [hm] at hok
    | false =>
      have hm : name ∉ p := contains_eq_false_iff.mp hpc
      cases hvc : v.contains name with
      | true =>
        have hmv := List.mem_of_elem_eq_true hvc
        simp [hm, hmv] at hok
        intro x hx
        rw [← hok]
        exact hx
      | false =>
        have hmv : name ∉ v := contains_eq_false_iff.mp hvc
        simp [hm, hmv] at hok
        have hfold : ∀ (cs : List String) (w w' : List String),
            cs.foldlM
              (fun vis child =>
                dfsCycleCheck groups fuel child vis (p ++ [name])) w =
              .ok w' →
            ∀ x, x ∈ w → x ∈ w' := by
          intro cs
          induction cs with
          | nil =>
            intro w w' h x hx
            simp [List.foldlM, pure, Except.pure] at h
            rw [← h]
            exact hx
          | cons c cs ihcs =>
            intro w w' h x hx
            rw [List.foldlM_cons] at h
            obtain ⟨w1, hc, hrest⟩ := except_bind_ok h
            exact ihcs w1 w' hrest x (ih c w (p ++ [name]) w1 hc x hx)
        intro x hx
        exact hfold (childrenOf groups name) (name :: v) v' hok x
          (List.mem_cons_of_mem name hx)

/-- The DFS only ever fails with `CycleDetected`. -/
theorem dfs_err_shape (groups : List (String × HostGroup)) :
    ∀ (fuel : Nat) (name : String) (v p : List String)
      (e : ValidationError),
      dfsCycleCheck groups fuel name v p = .error e →
      ∃ q, e = .cycleDetected q := by
  intro fuel
  induction fuel with
  | zero =>
    intro name v p e herr
    refine ⟨[], ?_⟩
    simp [dfsCycleCheck] at herr
    rw [herr]
  | succ fuel ih =>
    intro name v p e herr
    unfold dfsCycleCheck at herr
    cases hpc : p.contains name with
    | true =>
      have hm := List.mem_of_elem_eq_true hpc
      simp [hm] at herr
      exact ⟨p ++ [name], by rw [herr]⟩
    | false =>
      have hm : name ∉ p := contains_eq_false_iff.mp hpc
      cases hvc : v.contains name with
      | true =>
        have hmv := List.mem_of_elem_eq_true hvc
        simp [hm, hmv] at herr
      | false =>
        have hmv : name ∉ v := contains_eq_false_iff.mp hvc
        simp [hm, hmv] at herr
        have hfold : ∀ (cs : List String) (w : List String)
            (e : ValidationError),
            cs.foldlM
              (fun vis child =>
                dfsCycleCheck groups fuel child vis (p ++ [name])) w =
              .error e →
            ∃ q, e = .cycleDetected q := by
          intro cs
          induction cs with
          | nil =>
            intro w e h
            simp [List.foldlM, pure, Except.pure] at h
          | cons c cs ihcs =>
            intro w e h
            rw [List.foldlM_cons] at h
            cases hc : dfsCycleCheck groups fuel c w (p ++ [name]) with
            | error e' =>
              rw [hc, except_error_bind] at h
              cases h
              exact ih c w (p ++ [name]) e hc
            | ok w1 =>
              rw [hc, except_ok_bind] at h
              exact ihcs w1 e h
        exact hfold (childrenOf groups name) (name :: v) e herr

/-- A `getLast?`-phrased edge obligation from a path tip into a node. -/
def lastEdgeOk (groups : List (String × HostGroup)) (p : List String)
    (name : String) : Prop :=
  ∀ u, p.getLast? = some u → groupStepB groups u name = true

/-- Extending a chain by one edge at the end keeps it a chain. -/
theorem groupChainB_append {groups : List (String × HostGroup)}
    {name : String} :
    ∀ (p : List String), groupChainB groups p = true →
      lastEdgeOk groups p name →
      groupChainB groups (p ++ [name]) = true := by
  intro p
  induction p with
  | nil => intro _ _; rfl
  | cons a rest ih =>
    intro hchain hlast
    cases rest with
    | nil =>
      have hstep : groupStepB groups a name = true := hlast a rfl
      show (groupStepB groups a name && groupChainB groups [name]) = true
      rw [hstep]
      rfl
    | cons b rest2 =>
      have hchain2 : groupStepB groups a b = true ∧
          groupChainB groups (b :: rest2) = true := by
        unfold groupChainB at hchain
        rw [Bool.and_eq_true] at hchain
        exact hchain
      have hchain' := hchain2.2
      have hstep := hchain2.1
      have hlast' : lastEdgeOk groups (b :: rest2) name := by
        intro u hu
        exact hlast u (by rw [← hu]; exact List.getLast?_cons_cons)
      have := ih hchain' hlast'
      show (groupStepB groups a b &&
        groupChainB groups (b :: rest2 ++ [name])) = true
      rw [hstep, this]
      rfl

/-- When the DFS fails below a well-formed path, the reported path either
is the fuel marker `[]` or names a genuine cycle: an edge-chain with a
repeated node. -/
theorem dfs_err_names_cycle (groups : List (String × HostGroup)) :
    ∀ (fuel : Nat) (name : String) (v p q : List String),
      groupChainB groups p = true → lastEdgeOk groups p name →
      dfsCycleCheck groups fuel name v p = .error (.cycleDetected q) →
      q = [] ∨ (groupChainB groups q = true ∧ ¬ q.Nodup) := by
  intro fuel
  induction fuel with
  | zero =>
    intro name v p q _ _ herr
    simp [dfsCycleCheck] at herr
    exact Or.inl herr
  | succ fuel ih =>
    intro name v p q hchain hlast herr
    unfold dfsCycleCheck at herr
    cases hpc : p.contains name with
    | true =>
      have hm := List.mem_of_elem_eq_true hpc
      simp [hm] at herr
      refine Or.inr ⟨?_, ?_⟩
      · rw [← herr]
        exact groupChainB_append p hchain hlast
      · rw [← herr]
        intro hnd
        rw [List.nodup_append] at hnd
        exact hnd.2.2 hm (List.mem_cons_self name [])
    | false =>
      have hm : name ∉ p := contains_eq_false_iff.mp hpc
      cases hvc : v.contains name with
      | true =>
        have hmv := List.mem_of_elem_eq_true hvc
        simp [hm, hmv] at herr
      | false =>
        have hmv : name ∉ v := contains_eq_false_iff.mp hvc
        simp [hm, hmv] at herr
        have hchain1 : groupChainB groups (p ++ [name]) = true :=
          groupChainB_append p hchain hlast
        have hfold : ∀ (cs : List String), (∀ c ∈ cs,
              groupStepB groups name c = true) →
            ∀ (w : List String),
            cs.foldlM
              (fun vis child =>
                dfsCycleCheck groups fuel child vis (p ++ [name])) w =
              .error (.cycleDetected q) →
            q = [] ∨ (groupChainB groups q = true ∧ ¬ q.Nodup) := by
          intro cs
          induction cs with
          | nil =>
            intro _ w h
            simp [List.foldlM, pure, Except.pure] at h
          | cons c cs ihcs =>
            intro hsteps w h
            rw [List.foldlM_cons] at h
            cases hc : dfsCycleCheck groups fuel c w (p ++ [name]) with
            | error e' =>
              rw [hc, except_error_bind] at h
              cases h
              refine ih c w (p ++ [name]) q hchain1 ?_ hc
              intro u hu
              rw [List.getLast?_concat] at hu
              cases hu
              exact hsteps c (List.mem_cons_self c cs)
            | ok w1 =>
              rw [hc, except_ok_bind] at h
              exact ihcs (fun d hd =>
                hsteps d (List.mem_cons_of_mem c hd)) w1 h
        refine hfold (childrenOf groups name) ?_ (name :: v) herr
        intro c hc
        exact groupStepB_iff_childrenOf.mpr hc

/-- With enough fuel — more than the count of unvisited universe names —
the DFS never hits its fuel guard: the error `CycleDetected []` (whose
path is empty, which no genuine detection produces) cannot arise. -/
theorem dfs_no_fuel_marker (groups : List (String × HostGroup)) :
    ∀ (fuel : Nat) (name : String) (v p : List String),
      name ∈ groupNameUniverse groups →
      unvisitedCount groups v < fuel →
      dfsCycleCheck groups fuel name v p ≠ .error (.cycleDetected []) := by
  intro fuel
  induction fuel with
  | zero =>
    intro name v p _ hlt
    exact absurd hlt (by omega)
  | succ fuel ih =>
    intro name v p hU hlt herr
    unfold dfsCycleCheck at herr
    cases hpc : p.contains name with
    | true =>
      have hm := List.mem_of_elem_eq_true hpc
      simp [hm] at herr
    | false =>
      have hm : name ∉ p := contains_eq_false_iff.mp hpc
      cases hvc : v.contains name with
      | true =>
        have hmv := List.mem_of_elem_eq_true hvc
        simp [hm, hmv] at herr
      | false =>
        have hmv : name ∉ v := contains_eq_false_iff.mp hvc
        simp [hm, hmv] at herr
        have hdec : unvisitedCount groups (name :: v) <
            unvisitedCount groups v := unvisitedCount_lt hU hmv
        have hfold : ∀ (cs : List String),
            (∀ c ∈ cs, c ∈ groupNameUniverse groups) →
            ∀ (w : List String),
            (∀ x, x ∈ name :: v → x ∈ w) →
            cs.foldlM
              (fun vis child =>
                dfsCycleCheck groups fuel child vis (p ++ [name])) w ≠
              .error (.cycleDetected []) := by
          intro cs
          induction cs with
          | nil =>
            intro _ w _ h
            simp [List.foldlM, pure, Except.pure] at h
          | cons c cs ihcs =>
            intro hcs w hwsub h
            have hwlt : unvisitedCount groups w < fuel := by
              have h1 : unvisitedCount groups w ≤
                  unvisitedCount groups (name :: v) :=
                unvisitedCount_mono hwsub
              omega
            rw [List.foldlM_cons] at h
            cases hc : dfsCycleCheck groups fuel c w (p ++ [name]) with
            | error e' =>
              rw [hc, except_error_bind] at h
              cases h
              exact ih c w (p ++ [name])
                (hcs c (List.mem_cons_self c cs)) hwlt hc
            | ok w1 =>
              rw [hc, except_ok_bind] at h
              refine ihcs (fun d hd =>
                hcs d (List.mem_cons_of_mem c hd)) w1 ?_ h
              intro x hx
              exact dfs_ok_mono groups fuel c w (p ++ [name]) w1 hc x
                (hwsub x hx)
        exact hfold (childrenOf groups name)
          (fun c hc => childrenOf_mem_universe hc) (name :: v)
          (fun x hx => hx) herr

/-- Indexing into the left part of an appended list, `List.get` form. -/
theorem get_append_left_fin {α : Type} {l1 l2 : List α} {i : Nat}
    (h : i < l1.length) (h2 : i < (l1 ++ l2).length) :
    (l1 ++ l2).get ⟨i, h2⟩ = l1.get ⟨i, h⟩ := by
  rw [List.get_eq_getElem, List.get_eq_getElem]
  exact List.getElem_append_left h

/-- Indexing the appended singleton, `List.get` form. -/
theorem get_append_singleton_fin {α : Type} {l1 : List α} {a : α} {i : Nat}
    (heq : i = l1.length) (h2 : i < (l1 ++ [a]).length) :
    (l1 ++ [a]).get ⟨i, h2⟩ = a := by
  subst heq
  rw [List.get_eq_getElem]
  simp

/-- The DFS invariant: `L` lists the finished ("black") nodes — visited
and off the current path — without duplicates, in an order where every
finished node's successors appear strictly earlier. -/
def DfsInv (groups : List (String × HostGroup))
    (visited path L : List String) : Prop :=
  (∀ x, x ∈ L ↔ (x ∈ visited ∧ x ∉ path)) ∧
  L.Nodup ∧
  ∀ (i : Nat) (hi : i < L.length) (c : String),
    groupStepB groups (L.get ⟨i, hi⟩) c = true →
    ∃ (j : Nat) (hj : j < L.length), j < i ∧ L.get ⟨j, hj⟩ = c

/-- Pushing the entered node from "unvisited" to "gray" (on the path)
leaves the black list and its invariant untouched. -/
theorem DfsInv_enter {groups : List (String × HostGroup)}
    {v p L : List String} {name : String} (hInv : DfsInv groups v p L)
    (hmv : name ∉ v) :
    DfsInv groups (name :: v) (p ++ [name]) L := by
  obtain ⟨hmem, hnd, hord⟩ := hInv
  refine ⟨?_, hnd, hord⟩
  intro x
  constructor
  · intro hx
    obtain ⟨hxv, hxp⟩ := (hmem x).mp hx
    have hxname : x ≠ name := by
      rintro rfl
      exact hmv hxv
    constructor
    · exact List.mem_cons_of_mem name hxv
    · intro hx2
      rcases List.mem_append.mp hx2 with h1 | h2
      · exact hxp h1
      · exact hxname (List.mem_singleton.mp h2)
  · rintro ⟨hxv, hxp⟩
    have hxname : x ≠ name := by
      rintro rfl
      exact hxp (List.mem_append_right p (List.mem_singleton.mpr rfl))
    refine (hmem x).mpr ⟨?_, ?_⟩
    · rcases List.mem_cons.mp hxv with h1 | h2
      · exact absurd h1 hxname
      · exact h2
    · intro hx2
      exact hxp (List.mem_append_left [name] hx2)

/-- Finishing a node: append it to the black list; its children are
already black, so the order property extends. -/
theorem DfsInv_finish {groups : List (String × HostGroup)}
    {v' p L' : List String} {name : String}
    (hInv : DfsInv groups v' (p ++ [name]) L')
    (hnamev : name ∈ v') (hnamep : name ∉ p)
    (hchildren : ∀ c ∈ childrenOf groups name, c ∈ v' ∧ c ∉ p ++ [name]) :
    DfsInv groups v' p (L' ++ [name]) := by
  obtain ⟨hmem, hnd, hord⟩ := hInv
  have hnameL : name ∉ L' := by
    intro hx
    exact ((hmem name).mp hx).2
      (List.mem_append_right p (List.mem_singleton.mpr rfl))
  refine ⟨?_, ?_, ?_⟩
  · intro x
    by_cases hx : x = name
    · subst hx
      constructor
      · intro _; exact ⟨hnamev, hnamep⟩
      · intro _
        exact List.mem_append_right L' (List.mem_singleton.mpr rfl)
    · constructor
      · intro hxL
        have hxL' : x ∈ L' := by
          rcases List.mem_append.mp hxL with h1 | h2
          · exact h1
          · exact absurd (List.mem_singleton.mp h2) hx
        obtain ⟨hxv, hxp⟩ := (hmem x).mp hxL'
        exact ⟨hxv, fun h2 => hxp (List.mem_append_left [name] h2)⟩
      · rintro ⟨hxv, hxp⟩
        have : x ∈ L' := (hmem x).mpr ⟨hxv, by
          intro h2
          rcases List.mem_append.mp h2 with h3 | h4
          · exact hxp h3
          · exact hx (List.mem_singleton.mp h4)⟩
        exact List.mem_append_left [name] this
  · rw [List.nodup_append]
    refine ⟨hnd, List.nodup_singleton name, ?_⟩
    intro y hy hy2
    rw [List.mem_singleton.mp hy2] at hy
    exact hnameL hy
  · intro i hi c hstep
    have hlen : (L' ++ [name]).length = L'.length + 1 := by
      rw [List.length_append, List.length_singleton]
    by_cases hiL : i < L'.length
    · rw [get_append_left_fin hiL] at hstep
      obtain ⟨j, hj, hji, hgetj⟩ := hord i hiL c hstep
      refine ⟨j, by omega, hji, ?_⟩
      rw [get_append_left_fin hj]
      exact hgetj
    · have hieq : i = L'.length := by omega
      rw [get_append_singleton_fin hieq] at hstep
      have hc : c ∈ childrenOf groups name :=
        groupStepB_iff_childrenOf.mp hstep
      obtain ⟨hcv, hcp⟩ := hchildren c hc
      have hcL : c ∈ L' := (hmem c).mpr ⟨hcv, hcp⟩
      obtain ⟨⟨j, hj⟩, hgetj⟩ := List.mem_iff_get.mp hcL
      refine ⟨j, by omega, by omega, ?_⟩
      rw [get_append_left_fin hj]
      exact hgetj

/-- Main invariant preservation: a successful DFS run extends the finish
order while preserving its invariant; the entered node ends up visited
and off the path. -/
theorem dfs_ok_inv (groups : List (String × HostGroup)) :
    ∀ (fuel : Nat) (name : String) (v p L v' : List String),
      DfsInv groups v p L →
      dfsCycleCheck groups fuel name v p = .ok v' →
      ∃ L', DfsInv groups v' p L' ∧ L <+: L' ∧
        (∀ x, x ∈ v → x ∈ v') ∧ name ∈ v' ∧ name ∉ p := by
  intro fuel
  induction fuel with
  | zero =>
    intro name v p L v' _ hok
    exact absurd hok (by simp [dfsCycleCheck])
  | succ fuel ih =>
    intro name v p L v' hInv hok
    unfold dfsCycleCheck at hok
    cases hpc : p.contains name with
    | true =>
      have hm := List.mem_of_elem_eq_true hpc
      simp [hm] at hok
    | false =>
      have hm : name ∉ p := contains_eq_false_iff.mp hpc
      cases hvc : v.contains name with
      | true =>
        have hmv := List.mem_of_elem_eq_true hvc
        simp [hm, hmv] at hok
        exact ⟨L, by rw [← hok]; exact hInv, List.prefix_refl L,
          fun x hx => by rw [← hok]; exact hx, by rw [← hok]; exact hmv, hm⟩
      | false =>
        have hmv : name ∉ v := contains_eq_false_iff.mp hvc
        simp [hm, hmv] at hok
        have hInv1 : DfsInv groups (name :: v) (p ++ [name]) L :=
          DfsInv_enter hInv hmv
        have hfold : ∀ (cs : List String) (w M w' : List String),
            DfsInv groups w (p ++ [name]) M →
            cs.foldlM
              (fun vis child =>
                dfsCycleCheck groups fuel child vis (p ++ [name])) w =
              .ok w' →
            ∃ M', DfsInv groups w' (p ++ [name]) M' ∧ M <+: M' ∧
              (∀ x, x ∈ w → x ∈ w') ∧
              (∀ c ∈ cs, c ∈ w' ∧ c ∉ p ++ [name]) := by
          intro cs
          induction cs with
          | nil =>
            intro w M w' hI h
            simp [List.foldlM, pure, Except.pure] at h
            exact ⟨M, by rw [← h]; exact hI, List.prefix_refl M,
              fun x hx => by rw [← h]; exact hx,
              fun c hc => absurd hc (List.not_mem_nil c)⟩
          | cons c cs ihcs =>
            intro w M w' hI h
            rw [List.foldlM_cons] at h
            obtain ⟨w1, hc, hrest⟩ := except_bind_ok h
            obtain ⟨M1, hI1, hpre1, hmono1, hcw1, hcnotp⟩ :=
              ih c w (p ++ [name]) M w1 hI hc
            obtain ⟨M', hI', hpre', hmono', hall⟩ :=
              ihcs w1 M1 w' hI1 hrest
            refine ⟨M', hI', hpre1.trans hpre',
              fun x hx => hmono' x (hmono1 x hx), ?_⟩
            intro d hd
            rcases List.mem_cons.mp hd with h1 | h2
            · subst h1
              exact ⟨hmono' d hcw1, hcnotp⟩
            · exact hall d h2
        obtain ⟨M', hI', hpreL, hmonoNV, hchild⟩ :=
          hfold (childrenOf groups name) (name :: v) L v' hInv1 hok
        have hnamev : name ∈ v' :=
          hmonoNV name (List.mem_cons_self name v)
        refine ⟨M' ++ [name], DfsInv_finish hI' hnamev hm hchild,
          hpreL.trans (List.prefix_append M' [name]),
          fun x hx => hmonoNV x (List.mem_cons_of_mem name hx),
          hnamev, hm⟩

/-- `Except.map` on a success. -/
theorem except_map_on_ok {ε α β : Type} (f : α → β) (a : α) :
    (Except.map f (.ok a) : Except ε β) = .ok (f a) := rfl

/-- `Except.map` on a failure. -/
theorem except_map_on_error {ε α β : Type} (f : α → β) (e : ε) :
    (Except.map f (.error e) : Except ε β) = .error e := rfl

/-- A successful root loop means every root's DFS succeeded. -/
theorem rootsFold_ok {groups : List (String × HostGroup)} {fuelB : Nat} :
    ∀ (roots : List (String × HostGroup)) (u : Unit),
      roots.foldlM
        (fun _ kv =>
          (dfsCycleCheck groups fuelB kv.1 [] []).map (fun _ => ())) u =
        .ok () →
      ∀ kv ∈ roots, ∃ v', dfsCycleCheck groups fuelB kv.1 [] [] = .ok v' := by
  intro roots
  induction roots with
  | nil => intro u _ kv hkv; exact absurd hkv (List.not_mem_nil kv)
  | cons r rs ih =>
    intro u h kv hkv
    rw [List.foldlM_cons] at h
    cases hr : dfsCycleCheck groups fuelB r.1 [] [] with
    | error e =>
      rw [hr, except_map_on_error, except_error_bind] at h
      exact absurd h (by simp)
    | ok v' =>
      rw [hr, except_map_on_ok, except_ok_bind] at h
      rcases List.mem_cons.mp hkv with h1 | h2
      · exact ⟨v', by rw [h1]; exact hr⟩
      · exact ih () h kv h2

/-- A failing root loop pins the failure on some root's DFS. -/
theorem rootsFold_err {groups : List (String × HostGroup)} {fuelB : Nat} :
    ∀ (roots : List (String × HostGroup)) (u : Unit)
      (e : ValidationError),
      roots.foldlM
        (fun _ kv =>
          (dfsCycleCheck groups fuelB kv.1 [] []).map (fun _ => ())) u =
        .error e →
      ∃ kv ∈ roots, dfsCycleCheck groups fuelB kv.1 [] [] = .error e := by
  intro roots
  induction roots with
  | nil =>
    intro u e h
    simp [List.foldlM, pure, Except.pure] at h
  | cons r rs ih =>
    intro u e h
    rw [List.foldlM_cons] at h
    cases hr : dfsCycleCheck groups fuelB r.1 [] [] with
    | error e' =>
      rw [hr, except_map_on_error, except_error_bind] at h
      cases h
      exact ⟨r, List.mem_cons_self r rs, hr⟩
    | ok v' =>
      rw [hr, except_map_on_ok, except_ok_bind] at h
      obtain ⟨kv, hkv, hd⟩ := ih () e h
      exact ⟨kv, List.mem_cons_of_mem r hkv, hd⟩

/-- With nothing visited, the measure is the whole universe. -/
theorem unvisitedCount_nil (groups : List (String × HostGroup)) :
    unvisitedCount groups [] = (groupNameUniverse groups).length := by
  unfold unvisitedCount
  have h : List.filter (fun x => ! List.contains [] x)
      (groupNameUniverse groups) =
      List.filter (fun _ => true) (groupNameUniverse groups) :=
    List.filter_congr (fun x _ => rfl)
  rw [h, List.filter_true]

/-- A key of the group map lies in the name universe. -/
theorem key_mem_universe {groups : List (String × HostGroup)}
    {kv : String × HostGroup} (h : kv ∈ groups) :
    kv.1 ∈ groupNameUniverse groups := by
  unfold groupNameUniverse
  exact List.mem_append_left _ (List.mem_map.mpr ⟨kv, h, rfl⟩)

/-- Any failure of `check_cycles` is a `CycleDetected` error whose path
names a genuine cycle: a nonempty edge-chain with a repeated node. -/
theorem checkCycles_err_analysis {groups : List (String × HostGroup)}
    {e : ValidationError} (h : checkCycles groups = .error e) :
    ∃ q, e = .cycleDetected q ∧ q ≠ [] ∧
      groupChainB groups q = true ∧ ¬ q.Nodup := by
  unfold checkCycles at h
  obtain ⟨kv, hkv, hdfs⟩ := rootsFold_err groups () e h
  obtain ⟨q, rfl⟩ := dfs_err_shape groups _ kv.1 [] [] e hdfs
  have hq : q ≠ [] := by
    rintro rfl
    refine dfs_no_fuel_marker groups _ kv.1 [] []
      (key_mem_universe hkv) ?_ hdfs
    rw [unvisitedCount_nil]
    omega
  rcases dfs_err_names_cycle groups _ kv.1 [] [] q rfl
      (fun u hu => absurd hu (by simp)) hdfs with h1 | h2
  · exact absurd h1 hq
  · exact ⟨q, rfl, hq, h2.1, h2.2⟩

/-- Completeness of the cycle check: a cyclic `groups:` graph never
passes `check_cycles`. -/
theorem group_cycle_not_ok {groups : List (String × HostGroup)}
    {l : List String} (hcyc : isGroupCycleB groups l = true) :
    checkCycles groups ≠ .ok () := by
  intro hok
  unfold isGroupCycleB at hcyc
  rw [Bool.and_eq_true] at hcyc
  obtain ⟨hne, hall⟩ := hcyc
  rw [List.all_eq_true] at hall
  have hedge : ∀ i, i < l.length →
      groupStepB groups (l.getD i "") (l.getD ((i + 1) % l.length) "") =
        true :=
    fun i hi => hall i (List.mem_range.mpr hi)
  have hlen : 0 < l.length := by
    cases l with
    | nil => exact absurd hne (by simp)
    | cons a as => simp
  have hstep0 := hedge 0 hlen
  have hlook : ∃ g0, groups.lookup (l.getD 0 "") = some g0 := by
    unfold groupStepB at hstep0
    cases hl : groups.lookup (l.getD 0 "") with
    | none => rw [hl] at hstep0; exact absurd hstep0 (by simp)
    | some g0 => exact ⟨g0, rfl⟩
  obtain ⟨g0, hg0⟩ := hlook
  have hkv : (l.getD 0 "", g0) ∈ groups := by
    obtain ⟨l₁, l₂, heq, -⟩ := List.lookup_eq_some_iff.mp hg0
    rw [heq]
    exact List.mem_append_right l₁ (List.mem_cons_self _ _)
  unfold checkCycles at hok
  obtain ⟨v0, hdfs⟩ := rootsFold_ok groups () hok (l.getD 0 "", g0) hkv
  have hInv0 : DfsInv groups [] [] [] := by
    refine ⟨fun x => by simp, List.nodup_nil, ?_⟩
    intro i hi
    simp at hi
  obtain ⟨L0, hI0, -, -, hu0v, -⟩ :=
    dfs_ok_inv groups _ (l.getD 0 "") [] [] [] v0 hInv0 hdfs
  have hu0L : l.getD 0 "" ∈ L0 :=
    (hI0.1 (l.getD 0 "")).mpr ⟨hu0v, List.not_mem_nil _⟩
  obtain ⟨⟨i0, hi0⟩, hget0⟩ := List.mem_iff_get.mp hu0L
  have descent : ∀ m : Nat, ∃ (i : Nat) (hi : i < L0.length),
      L0.get ⟨i, hi⟩ = l.getD (m % l.length) "" ∧ i + m ≤ i0 := by
    intro m
    induction m with
    | zero =>
      refine ⟨i0, hi0, ?_, by omega⟩
      rw [Nat.zero_mod]
      exact hget0
    | succ m ihm =>
      obtain ⟨i, hi, hgi, hle⟩ := ihm
      have hmodlt : m % l.length < l.length := Nat.mod_lt _ hlen
      have hstep := hedge (m % l.length) hmodlt
      have hidx : (m % l.length + 1) % l.length = (m + 1) % l.length := by
        conv_lhs => rw [Nat.add_mod]
        conv_rhs => rw [Nat.add_mod]
        rw [Nat.mod_mod_of_dvd m dvd_rfl]
      have hstep2 : groupStepB groups (L0.get ⟨i, hi⟩)
          (l.getD ((m + 1) % l.length) "") = true := by
        rw [hgi, ← hidx]
        exact hstep
      obtain ⟨j, hj, hji, hgetj⟩ := hI0.2.2 i hi _ hstep2
      exact ⟨j, hj, hgetj, by omega⟩
  obtain ⟨i, hi, -, habs⟩ := descent (i0 + 1)
  omega

/-- Inversion of `Except.map` on a successful result. -/
theorem except_map_ok {ε α β : Type} {f : α → β} {x : Except ε α} {b : β}
    (h : Except.map f x = .ok b) : ∃ a, x = .ok a ∧ f a = b := by
  cases x with
  | error e => rw [except_map_on_error] at h; exact absurd h (by simp)
  | ok a =>
    rw [except_map_on_ok] at h
    cases h
    exact ⟨a, rfl, rfl⟩

/-- C7 counterexample. A configuration whose `extends:` graph has the
cycle `b → c → b` (and no host groups) is not rejected at load:
`ConfigValidator::validate` passes, resolving the off-cycle spec `a`
succeeds, and resolving `b` fails with an error that names only the
revisited config — `"Circular reference in filesystem config: b"` — not
the cycle path `b -> c -> b`. -/
theorem cycle_rejection_counterexample :
    isExtendsCycleB cycCfg ["b", "c"] = true ∧
    validateNetwork { groups := [], policies := [] } = .ok () ∧
    resolveFilesystemConfig cycCfg "a" = .ok {} ∧
    resolveFilesystemConfig cycCfg "b" =
      .error (.configError "Circular reference in filesystem config: b") :=
  ⟨by decide, by rfl, by rfl, by rfl⟩

/-- C7 amended. Cycle rejection, as the code implements it: (1) a cycle
in the HostGroup `groups:` graph makes `ConfigValidator::validate` fail
with a `CycleDetected` error whose path names a genuine cycle (a nonempty
edge-chain with a repeated group); (2) a cycle in the FilesystemSpec
`extends:` graph is rejected only on demand — resolving any spec that
lies on the cycle fails — not at load time, and its error names the
revisited spec rather than the cycle path. -/
theorem cycle_rejection_amended :
    (∀ (ng : NetworkConfig) (l : List String),
      isGroupCycleB ng.groups l = true →
      ∃ p, validateNetwork ng = .error (.cycleDetected p) ∧ p ≠ [] ∧
        groupChainB ng.groups p = true ∧ ¬ p.Nodup) ∧
    (∀ (configs : List (String × FilesystemSpec)) (l : List String)
      (name : String), isExtendsCycleB configs l = true → name ∈ l →
      ∀ spec, resolveFilesystemConfig configs name ≠ .ok spec) := by
  constructor
  · intro ng l hcyc
    cases hc : checkCycles ng.groups with
    | ok u =>
      cases u
      exact absurd hc (group_cycle_not_ok hcyc)
    | error e =>
      obtain ⟨q, rfl, hq, hchain, hnd⟩ := checkCycles_err_analysis hc
      refine ⟨q, ?_, hq, hchain, hnd⟩
      unfold validateNetwork
      rw [hc, except_error_bind]
  · intro configs l name hcyc hmem spec h
    unfold resolveFilesystemConfig at h
    obtain ⟨r, hr, -⟩ := except_map_ok h
    exact resolve_on_cycle_fails hcyc (configs.length + 2) name hmem [] r hr

/-- Closed witness for `cycle_rejection_amended`: the group cycle
`ga → gb → ga` of `gcNet` is reported by validation, and the spec `b` on
the extends cycle of `cycCfg` does not resolve. -/
theorem cycle_rejection_amended_witness :
    (∃ p, validateNetwork gcNet = .error (.cycleDetected p) ∧ p ≠ [] ∧
      groupChainB gcNet.groups p = true ∧ ¬ p.Nodup) ∧
    resolveFilesystemConfig cycCfg "b" ≠
      .ok ({} : FilesystemSpec) :=
  ⟨cycle_rejection_amended.1 gcNet ["ga", "gb"] (by decide),
   cycle_rejection_amended.2 cycCfg ["b", "c"] "b" (by decide) (by decide)
     ({} : FilesystemSpec)⟩

/-- A successful `mount_bw_relay` pushes exactly one mount: some existing
relay binary bound read-only at `/bw-relay`. -/
theorem mountBwRelay_ok_shape (fs : HostFs) (bp : Option String)
    (rm : List MountPoint) (h : mountBwRelay fs bp = .ok rm) :
    ∃ src, rm = [MountPoint.ro src "/bw-relay"] := by
  simp only [mountBwRelay] at h
  split at h
  · split at h
    · cases h; exact ⟨_, rfl⟩
    · exact absurd h (by simp)
  · split at h
    · cases h; exact ⟨_, rfl⟩
    · exact absurd h (by simp)

/-- Every successful `setup_mounts` result contains a read-only
`/bw-relay` mount, whatever the network mode: `mount_bw_relay` is invoked
unconditionally. -/
theorem setupMounts_mounts_relay (fs : HostFs) (config : SandboxConfig)
    (spec : FilesystemSpec) (tmpExportDir : String) (ms : List MountPoint)
    (h : setupMounts fs config spec tmpExportDir = .ok ms) :
    ∃ src, MountPoint.ro src "/bw-relay" ∈ ms := by
  unfold setupMounts at h
  obtain ⟨home, -, h⟩ := except_bind_ok h
  obtain ⟨em, -, h⟩ := except_bind_ok h
  obtain ⟨rm, hrm, h⟩ := except_bind_ok h
  obtain ⟨src, rfl⟩ := mountBwRelay_ok_shape fs config.bw_relay_path rm hrm
  cases h
  exact ⟨src, by simp⟩

/-- C6 counterexample. With full (non-filtered) network access the
assembled bubblewrap argv still ends `/bw-relay -- <cli> <args…>` rather
than executing the tool directly, and `setup_mounts` still bind-mounts the
located `bw-relay` binary read-only at `/bw-relay`. -/
theorem final_command_counterexample :
    c6cfg.network_mode = NetworkMode.enabled ∧
    buildCommandArgs c6cfg [] [] =
      ["--die-with-parent", "--unshare-pid", "--unshare-ipc", "--share-net",
       "--chdir", "/work", "--clearenv", "/bw-relay", "--", "/usr/bin/tool",
       "d", "c"] ∧
    "/bw-relay" ∈ buildCommandArgs c6cfg [] [] ∧
    setupMounts c6fs c6cfg {} "/tmp/bw-tool-00000000" =
      .ok [MountPoint.rw "/tmp/bw-tool-00000000" "/tmp",
        MountPoint.tmpfs "/etc", MountPoint.remount_ro "/etc",
        MountPoint.ro "/usr" "/usr", MountPoint.symlink "/usr/bin" "/bin",
        MountPoint.rw "/work" "/work",
        MountPoint.ro "/opt/bw/bw-relay" "/bw-relay", MountPoint.procfs,
        MountPoint.dev_bind] :=
  ⟨by rfl, by rfl, by decide, by rfl⟩

/-- C6 amended. In every network mode the final command goes through the
relay: whenever `setup_mounts` succeeds its mount list binds some relay
binary read-only at `/bw-relay`, and the assembled argv ends
`/bw-relay [--socket /proxy.sock] -- <target> <args…>` — the socket pair
present exactly in `Filtered` mode — where the target is `/bin/sh` with
`-i` and the CLI args under `--shell`, and otherwise the tool CLI path
with its default args then CLI args. -/
theorem final_command_amended (fs : HostFs) (config : SandboxConfig)
    (spec : FilesystemSpec) (tmpExportDir : String)
    (mounts : List MountPoint) (envArgs : List String)
    (ms : List MountPoint)
    (hms : setupMounts fs config spec tmpExportDir = .ok ms) :
    (∃ src, MountPoint.ro src "/bw-relay" ∈ ms) ∧
    (∃ pre, buildCommandArgs config mounts envArgs =
      pre ++ ["/bw-relay"] ++
      (match config.network_mode with
       | NetworkMode.filtered _ _ _ _ _ => ["--socket", "/proxy.sock"]
       | _ => []) ++
      ["--", (targetCommand config).1] ++ (targetCommand config).2) ∧
    (config.shell = false →
      (targetCommand config).1 = config.tool_config.cli_path ∧
      (targetCommand config).2 =
        config.tool_config.default_args ++ config.tool_config.cli_args) ∧
    (config.shell = true →
      (targetCommand config).1 = "/bin/sh" ∧
      (targetCommand config).2 = "-i" :: config.tool_config.cli_args) := by
  refine ⟨setupMounts_mounts_relay fs config spec tmpExportDir ms hms,
    ?_, ?_, ?_⟩
  · refine ⟨["--die-with-parent", "--unshare-pid", "--unshare-ipc"] ++
      (match config.network_mode with
       | .enabled => ["--share-net"]
       | .disabled => ["--unshare-net"]
       | .filtered _ _ _ _ _ => ["--unshare-net"]) ++
      (mounts.flatMap MountPoint.to_args) ++
      ["--chdir", config.target_dir, "--clearenv"] ++ envArgs, ?_⟩
    cases hnm : config.network_mode <;>
      simp [buildCommandArgs, hnm, List.append_assoc]
  · intro hsh
    simp [targetCommand, hsh]
  · intro hsh
    simp [targetCommand, hsh]

/-- Closed witness for `final_command_amended`: the concrete
full-network configuration `c6cfg` under the `c6fs` host oracle. -/
theorem final_command_amended_witness :
    (∃ src, MountPoint.ro src "/bw-relay" ∈
      [MountPoint.rw "/tmp/bw-tool-00000000" "/tmp",
        MountPoint.tmpfs "/etc", MountPoint.remount_ro "/etc",
        MountPoint.ro "/usr" "/usr", MountPoint.symlink "/usr/bin" "/bin",
        MountPoint.rw "/work" "/work",
        MountPoint.ro "/opt/bw/bw-relay" "/bw-relay", MountPoint.procfs,
        MountPoint.dev_bind]) ∧
    (∃ pre, buildCommandArgs c6cfg [] [] =
      pre ++ ["/bw-relay"] ++
      (match c6cfg.network_mode with
       | NetworkMode.filtered _ _ _ _ _ => ["--socket", "/proxy.sock"]
       | _ => []) ++
      ["--", (targetCommand c6cfg).1] ++ (targetCommand c6cfg).2) ∧
    (c6cfg.shell = false →
      (targetCommand c6cfg).1 = c6cfg.tool_config.cli_path ∧
      (targetCommand c6cfg).2 =
        c6cfg.tool_config.default_args ++ c6cfg.tool_config.cli_args) ∧
    (c6cfg.shell = true →
      (targetCommand c6cfg).1 = "/bin/sh" ∧
      (targetCommand c6cfg).2 = "-i" :: c6cfg.tool_config.cli_args) :=
  final_command_amended c6fs c6cfg {} "/tmp/bw-tool-00000000" [] []
    [MountPoint.rw "/tmp/bw-tool-00000000" "/tmp",
      MountPoint.tmpfs "/etc", MountPoint.remount_ro "/etc",
      MountPoint.ro "/usr" "/usr", MountPoint.symlink "/usr/bin" "/bin",
      MountPoint.rw "/work" "/work",
      MountPoint.ro "/opt/bw/bw-relay" "/bw-relay", MountPoint.procfs,
      MountPoint.dev_bind] (by rfl)

/-- C5. Learning-deny recording is absent from the daemon: with a
learning recorder present and a policy engine that denies
`forbidden.com`, the daemon replies `BLOCKED\n` and records nothing —
neither `record` nor `record_denied` is reached — although
`LearningRecorder::record_denied_host`, had it been called, would have
put the host into the session's `<session_name>_denied` group. -/
theorem learn_deny_not_recorded :
    handleClient (some defaultDenyEngine) true (fun _ _ => true)
        "CONNECT forbidden.com 443\n" =
      ⟨some "BLOCKED\n", [], []⟩ ∧
    recordDeniedHost "learned_session_1" [] "forbidden.com" =
      [("learned_session_1_denied",
        { description := "learned_session_1_denied",
          hosts := ["forbidden.com"] })] :=
  ⟨by rfl, by rfl⟩

end BwClaude
